import Mathlib

/-!
Verification model of `keyvalue_sqlite` (src/keyvalue_sqlite/keyvalue_sqlite.py).

The repository is a key-value store over a SQLite table
`(key TEXT PRIMARY KEY UNIQUE NOT NULL, value TEXT)`.  Values are serialized
with `json.dumps(val, sort_keys=True, ensure_ascii=False)` and deserialized
with `json.loads`.  This file shallowly embeds:

* the JSON document model and the behaviour of Python's `json` module
  (printer and parser) as used by `json_encode` / `json_decode`;
* the SQLite-visible table state as a key-sorted association list
  `List (String × String)` mapping key text to stored value text;
* every public operation of `KeyValueSqlite`, including the key validation
  (`check_key`), the connection events (read scope / write scope), and the
  `atomic_add` read-modify-write;
* a small-step concurrent system of N threads each running one
  `atomic_add`, serialized by the database's exclusive write lock.

Modelling notes (external libraries are modelled from their documented
behaviour; the repository code under src/ is embedded directly):

* Python floats are IEEE doubles printed with shortest round-trip notation.
  IEEE formatting is outside the embedding, so floats are modelled as exact
  decimals `m * 10 ^ e` printed in exponent notation `<m>e<e>`; this keeps
  the property the claims depend on: a float token always contains `.` or
  an exponent marker, an int token never does, and `json.loads` classifies
  numeric tokens by exactly that criterion.
* `json.dumps(..., sort_keys=True)` prints map keys in sorted order, and
  Python dict equality ignores insertion order, so documents are modelled
  with maps in canonical (strictly key-sorted) order.
* The parser model accepts digit runs with leading zeros, which Python's
  stricter number grammar rejects; the decoder is only ever applied to
  encoder output in the claims, where the difference is invisible.
-/

set_option linter.unusedVariables false

namespace KVS

/-- JSON document model: the values `json.dumps` accepts and `json.loads`
returns.  Floats are exact decimals `m * 10 ^ e` (see file header). -/
inductive JVal where
  | null
  | bool (b : Bool)
  | int (n : Int)
  | float (m : Int) (e : Int)
  | str (s : String)
  | arr (xs : List JVal)
  | obj (kvs : List (String × JVal))
  deriving Repr

/-- The decimal digit character for `d < 10` (`'0'` used out of range). -/
def digitChar (d : Nat) : Char :=
  match d with
  | 0 => '0' | 1 => '1' | 2 => '2' | 3 => '3' | 4 => '4'
  | 5 => '5' | 6 => '6' | 7 => '7' | 8 => '8' | 9 => '9'
  | _ => '0'

/-- Decimal digits of a natural number, most significant first; fueled so the
definition is structural and kernel-reducible.  `fuel > n` suffices. -/
def natDigitsAux : Nat → Nat → List Char
  | 0, _ => []
  | fuel + 1, n =>
    if n < 10 then [digitChar n]
    else natDigitsAux fuel (n / 10) ++ [digitChar (n % 10)]

/-- Decimal digits of `n`, as Python's `str(int)` prints them. -/
def natDigits (n : Nat) : List Char := natDigitsAux (n + 1) n

/-- Decimal rendering of an integer, as Python's `str(int)` prints it. -/
def intChars (n : Int) : List Char :=
  if n < 0 then '-' :: natDigits n.natAbs else natDigits n.natAbs

/-- Hex digit character (lowercase), as Python's `'\u%04x'` formatting. -/
def hexChar (d : Nat) : Char :=
  match d with
  | 0 => '0' | 1 => '1' | 2 => '2' | 3 => '3' | 4 => '4'
  | 5 => '5' | 6 => '6' | 7 => '7' | 8 => '8' | 9 => '9'
  | 10 => 'a' | 11 => 'b' | 12 => 'c' | 13 => 'd' | 14 => 'e' | 15 => 'f'
  | _ => '0'

/-- How `json.dumps(..., ensure_ascii=False)` renders one character inside a
string literal: `"` and `\` are escaped, the five short control escapes are
used, remaining control characters become `\u00xx`, and every other
character (including non-ASCII) is emitted verbatim. -/
def escapeChar (c : Char) : List Char :=
  if c = '"' then ['\\', '"']
  else if c = '\\' then ['\\', '\\']
  else if c = '\n' then ['\\', 'n']
  else if c = '\t' then ['\\', 't']
  else if c = '\r' then ['\\', 'r']
  else if c = Char.ofNat 8 then ['\\', 'b']
  else if c = Char.ofNat 12 then ['\\', 'f']
  else if c.toNat < 32 then
    ['\\', 'u', '0', '0', hexChar (c.toNat / 16), hexChar (c.toNat % 16)]
  else [c]

/-- Body of a JSON string literal (without the surrounding quotes). -/
def escBody (s : String) : List Char := (s.data.map escapeChar).flatten

mutual

/-- Model of `json.dumps(v, sort_keys=True, ensure_ascii=False)` with the
default separators `", "` and `": "`, over documents in canonical
(key-sorted) map order. -/
def printV : JVal → List Char
  | .null => String.data "null"
  | .bool true => String.data "true"
  | .bool false => String.data "false"
  | .int n => intChars n
  | .float m e => intChars m ++ 'e' :: intChars e
  | .str s => '"' :: escBody s ++ ['"']
  | .arr [] => ['[', ']']
  | .arr (x :: xs) => '[' :: (printV x ++ printArrTail xs) ++ [']']
  | .obj [] => ['{', '}']
  | .obj ((k, v) :: kvs) =>
    '{' :: ('"' :: escBody k ++ '"' :: ':' :: ' ' :: printV v ++ printObjTail kvs) ++ ['}']

/-- Remaining array items, each preceded by the `", "` separator. -/
def printArrTail : List JVal → List Char
  | [] => []
  | x :: xs => ',' :: ' ' :: printV x ++ printArrTail xs

/-- Remaining object members, each preceded by the `", "` separator. -/
def printObjTail : List (String × JVal) → List Char
  | [] => []
  | (k, v) :: kvs =>
    ',' :: ' ' :: '"' :: escBody k ++ '"' :: ':' :: ' ' :: printV v ++ printObjTail kvs

end

/-- Model of `json_encode` of the source: `json.dumps(val, sort_keys=True,
ensure_ascii=False)`, on an encodable (JSON document) argument. -/
def json_encode (v : JVal) : String := String.mk (printV v)

/-- Indentation of `ind` spaces. -/
def pad (n : Nat) : List Char := List.replicate n ' '

mutual

/-- Model of `json.dumps(v, sort_keys=True, indent=ind, ensure_ascii=False)`:
with an indent, each container item sits on its own line at `ind * level`
spaces, the item separator is `","` + newline and the key separator stays
`": "`; empty containers still print as `[]` / `{}`. -/
def printIndV (ind lvl : Nat) : JVal → List Char
  | .arr [] => ['[', ']']
  | .arr (x :: xs) =>
    '[' :: '\n' :: (pad (ind * (lvl + 1)) ++ printIndV ind (lvl + 1) x ++
      printIndArrTail ind (lvl + 1) xs) ++ '\n' :: pad (ind * lvl) ++ [']']
  | .obj [] => ['{', '}']
  | .obj ((k, v) :: kvs) =>
    '{' :: '\n' :: (pad (ind * (lvl + 1)) ++ '"' :: escBody k ++
      '"' :: ':' :: ' ' :: printIndV ind (lvl + 1) v ++
      printIndObjTail ind (lvl + 1) kvs) ++ '\n' :: pad (ind * lvl) ++ ['}']
  | v => printV v

/-- Remaining array items in indented form. -/
def printIndArrTail (ind lvl : Nat) : List JVal → List Char
  | [] => []
  | x :: xs =>
    ',' :: '\n' :: pad (ind * lvl) ++ printIndV ind lvl x ++ printIndArrTail ind lvl xs

/-- Remaining object members in indented form. -/
def printIndObjTail (ind lvl : Nat) : List (String × JVal) → List Char
  | [] => []
  | (k, v) :: kvs =>
    ',' :: '\n' :: pad (ind * lvl) ++ '"' :: escBody k ++ '"' :: ':' :: ' ' ::
      printIndV ind lvl v ++ printIndObjTail ind lvl kvs

end

/-- Model of `json.dumps(v, sort_keys=True, indent=indent, ensure_ascii=False)` with
`indent` either `None` (compact, separators `", "` / `": "`) or a width. -/
def pyDumps (indent : Option Nat) (v : JVal) : String :=
  match indent with
  | none => String.mk (printV v)
  | some i => String.mk (printIndV i 0 v)

/-! ### The `json.loads` model -/

/-- JSON whitespace (what Python's `json.loads` skips between tokens). -/
def isWsChar (c : Char) : Bool :=
  c = ' ' || c = '\t' || c = '\n' || c = '\r'

/-- Drop leading JSON whitespace. -/
def skipWs : List Char → List Char
  | [] => []
  | c :: cs => if isWsChar c then skipWs cs else c :: cs

/-- Decimal digit test via code points. -/
def isDigitCh (c : Char) : Bool := 48 ≤ c.toNat && c.toNat ≤ 57

/-- Value of a decimal digit character. -/
def digitVal (c : Char) : Nat := c.toNat - 48

/-- Consume a run of decimal digits, returning the accumulated value, the
number of digits consumed, and the remaining input. -/
def takeDigits : List Char → Nat → Nat × Nat × List Char
  | [], acc => (acc, 0, [])
  | c :: cs, acc =>
    if isDigitCh c then
      let r := takeDigits cs (10 * acc + digitVal c)
      (r.1, r.2.1 + 1, r.2.2)
    else (acc, 0, c :: cs)

/-- Value of a hex digit character, if it is one. -/
def hexVal (c : Char) : Option Nat :=
  if 48 ≤ c.toNat && c.toNat ≤ 57 then some (c.toNat - 48)
  else if 97 ≤ c.toNat && c.toNat ≤ 102 then some (c.toNat - 87)
  else if 65 ≤ c.toNat && c.toNat ≤ 70 then some (c.toNat - 55)
  else none

/-- Prepend a character to the string accumulated by a string-body parse. -/
def consFst (c : Char) : Option (List Char × List Char) → Option (List Char × List Char)
  | none => none
  | some (s, r) => some (c :: s, r)

/-- Four hex digits, as the payload of a `\uXXXX` escape. -/
def hex4 (h1 h2 h3 h4 : Char) : Option Nat :=
  match hexVal h1, hexVal h2, hexVal h3, hexVal h4 with
  | some a, some b, some c, some d => some (((a * 16 + b) * 16 + c) * 16 + d)
  | _, _, _, _ => none

/-- Parse the body of a JSON string literal up to the closing quote,
understanding the escapes `json.loads` accepts (`\" \\ \/ \b \f \n \r \t`
and `\uXXXX`).  Surrogate escape values (which Python combines pairwise
into astral characters, or tolerates lone) are rejected here: Lean's
`Char` cannot hold them, and the encoder side — whose output is the only
input the claims decode — never emits `\u` beyond the C0 controls. -/
def parseStrBody : List Char → Option (List Char × List Char)
  | [] => none
  | c :: rest =>
    if c = '"' then some ([], rest)
    else if c = '\\' then
      match rest with
      | [] => none
      | e :: rest2 =>
        if e = '"' then consFst '"' (parseStrBody rest2)
        else if e = '\\' then consFst '\\' (parseStrBody rest2)
        else if e = '/' then consFst '/' (parseStrBody rest2)
        else if e = 'b' then consFst (Char.ofNat 8) (parseStrBody rest2)
        else if e = 'f' then consFst (Char.ofNat 12) (parseStrBody rest2)
        else if e = 'n' then consFst '\n' (parseStrBody rest2)
        else if e = 'r' then consFst '\r' (parseStrBody rest2)
        else if e = 't' then consFst '\t' (parseStrBody rest2)
        else if e = 'u' then
          match rest2 with
          | h1 :: h2 :: h3 :: h4 :: rest3 =>
            match hex4 h1 h2 h3 h4 with
            | some n =>
              if n < 0xD800 || 0xDFFF < n then consFst (Char.ofNat n) (parseStrBody rest3)
              else none
            | none => none
          | _ => none
        else none
    else consFst c (parseStrBody rest)
termination_by structural cs => cs

/-- Signed integer from a parsed magnitude. -/
def appSign (neg : Bool) (m : Nat) : Int := if neg then -(m : Int) else (m : Int)

/-- Leading `-` sign of a numeric token. -/
def signSplit (cs : List Char) : Bool × List Char :=
  match cs with
  | c :: t => if c = '-' then (true, t) else (false, cs)
  | [] => (false, cs)

/-- Leading `-`/`+` sign of an exponent. -/
def signSplitE (cs : List Char) : Bool × List Char :=
  match cs with
  | c :: t => if c = '-' then (true, t) else if c = '+' then (false, t) else (false, cs)
  | [] => (false, cs)

/-- Signed exponent digits after `e`/`E`. -/
def parseExpDigits (neg : Bool) (m fc : Nat) (cs : List Char) :
    Option (JVal × List Char) :=
  let p := signSplitE cs
  match p.2 with
  | c :: _ =>
    if isDigitCh c then
      let r := takeDigits p.2 0
      some (.float (appSign neg m) (appSign p.1 r.1 - (fc : Int)), r.2.2)
    else none
  | [] => none

/-- Exponent part of a numeric token (input positioned after the mantissa).
`json.loads` classifies a numeric token as a float exactly when it contains
`.`, `e` or `E`; `isFloat` records whether a fraction part was seen. -/
def parseExpPart (neg isFloat : Bool) (m fc : Nat) (cs : List Char) :
    Option (JVal × List Char) :=
  match cs with
  | c :: t =>
    if c = 'e' || c = 'E' then parseExpDigits neg m fc t
    else if isFloat then some (.float (appSign neg m) (-(fc : Int)), c :: t)
    else some (.int (appSign neg m), c :: t)
  | [] =>
    if isFloat then some (.float (appSign neg m) (-(fc : Int)), [])
    else some (.int (appSign neg m), [])

/-- Parse a JSON numeric token: optional sign, digits, optional fraction,
optional exponent.  Integer-versus-float classification follows Python:
a token containing `.`, `e` or `E` is a float, anything else an int. -/
def parseNum (cs : List Char) : Option (JVal × List Char) :=
  let p := signSplit cs
  match p.2 with
  | c :: _ =>
    if isDigitCh c then
      let r := takeDigits p.2 0
      match r.2.2 with
      | c2 :: t2 =>
        if c2 = '.' then
          match t2 with
          | d :: _ =>
            if isDigitCh d then
              let f := takeDigits t2 0
              parseExpPart p.1 true (r.1 * 10 ^ f.2.1 + f.1) f.2.1 f.2.2
            else none
          | [] => none
        else parseExpPart p.1 false r.1 0 (c2 :: t2)
      | [] => parseExpPart p.1 false r.1 0 []
    else none
  | [] => none

mutual

/-- One JSON value (fueled recursive-descent parser; the fuel only bounds
nesting of the recursion and never changes the result when sufficient). -/
def parseVal : Nat → List Char → Option (JVal × List Char)
  | 0, _ => none
  | fuel + 1, cs =>
    match skipWs cs with
    | [] => none
    | c :: rest =>
      if c = '"' then
        match parseStrBody rest with
        | some (body, r) => some (.str (String.mk body), r)
        | none => none
      else if c = '[' then
        match skipWs rest with
        | [] => none
        | c1 :: r =>
          if c1 = ']' then some (.arr [], r)
          else
            match parseVal fuel (c1 :: r) with
            | some (v, r2) =>
              match parseArrTl fuel r2 with
              | some (vs, r3) => some (.arr (v :: vs), r3)
              | none => none
            | none => none
      else if c = '{' then
        match skipWs rest with
        | [] => none
        | c1 :: r =>
          if c1 = '}' then some (.obj [], r)
          else
            match parseMember fuel (c1 :: r) with
            | some (kv, r2) =>
              match parseObjTl fuel r2 with
              | some (kvs, r3) => some (.obj (kv :: kvs), r3)
              | none => none
            | none => none
      else if c = 'n' then
        match rest with
        | 'u' :: 'l' :: 'l' :: r => some (.null, r)
        | _ => none
      else if c = 't' then
        match rest with
        | 'r' :: 'u' :: 'e' :: r => some (.bool true, r)
        | _ => none
      else if c = 'f' then
        match rest with
        | 'a' :: 'l' :: 's' :: 'e' :: r => some (.bool false, r)
        | _ => none
      else parseNum (c :: rest)

/-- Array items after the first: `,` item ... `]`. -/
def parseArrTl : Nat → List Char → Option (List JVal × List Char)
  | 0, _ => none
  | fuel + 1, cs =>
    match skipWs cs with
    | [] => none
    | c :: r =>
      if c = ']' then some ([], r)
      else if c = ',' then
        match parseVal fuel r with
        | some (v, r1) =>
          match parseArrTl fuel r1 with
          | some (vs, r2) => some (v :: vs, r2)
          | none => none
        | none => none
      else none

/-- One object member: string key, `:`, value. -/
def parseMember : Nat → List Char → Option ((String × JVal) × List Char)
  | 0, _ => none
  | fuel + 1, cs =>
    match skipWs cs with
    | [] => none
    | c :: r =>
      if c = '"' then
        match parseStrBody r with
        | some (k, r1) =>
          match skipWs r1 with
          | [] => none
          | c1 :: r2 =>
            if c1 = ':' then
              match parseVal fuel r2 with
              | some (v, r3) => some ((String.mk k, v), r3)
              | none => none
            else none
        | none => none
      else none

/-- Object members after the first: `,` member ... `}`. -/
def parseObjTl : Nat → List Char → Option (List (String × JVal) × List Char)
  | 0, _ => none
  | fuel + 1, cs =>
    match skipWs cs with
    | [] => none
    | c :: r =>
      if c = '}' then some ([], r)
      else if c = ',' then
        match parseMember fuel r with
        | some (kv, r1) =>
          match parseObjTl fuel r1 with
          | some (kvs, r2) => some (kv :: kvs, r2)
          | none => none
        | none => none
      else none

end

/-- Model of `json_decode` of the source: `json.loads(val)`.  `None` models the
`ValueError`/`JSONDecodeError` the real function raises on invalid input.
The fuel `length + 1` always suffices, since every level of nesting
consumes at least one input character. -/
def json_decode (s : String) : Option JVal :=
  match parseVal (s.length + 1) s.data with
  | some (v, rest) => if skipWs rest = [] then some v else none
  | none => none

/-! ### Key ordering

SQLite compares TEXT with memcmp over UTF-8 bytes, which coincides with
lexicographic comparison of Unicode code points, which is also Python's
`str` ordering (used by `sort_keys=True`).  Explicit Boolean comparisons
are used so that everything evaluates inside the kernel. -/

/-- Lexicographic strict order on code points. -/
def listLt : List Char → List Char → Bool
  | [], [] => false
  | [], _ :: _ => true
  | _ :: _, [] => false
  | a :: as, b :: bs =>
    if a.toNat < b.toNat then true
    else if b.toNat < a.toNat then false
    else listLt as bs

/-- Lexicographic order on code points (reflexive). -/
def listLe : List Char → List Char → Bool
  | [], _ => true
  | _ :: _, [] => false
  | a :: as, b :: bs =>
    if a.toNat < b.toNat then true
    else if b.toNat < a.toNat then false
    else listLe as bs

/-- Strict key order. -/
def strLt (a b : String) : Bool := listLt a.data b.data

/-- Key order, as `BETWEEN` compares its inclusive bounds. -/
def strLe (a b : String) : Bool := listLe a.data b.data

/-! ### Canonical documents -/

/-- Strictly sorted (ascending) list of strings, under Python's code-point
string order (which Lean's `String` order matches). -/
def strictSorted : List String → Bool
  | [] => true
  | [_] => true
  | a :: b :: t => strLt a b && strictSorted (b :: t)

mutual

/-- Canonical documents: every map has strictly sorted keys.  These are the
faithful images of Python dict-valued documents, since dict keys are unique,
dict equality ignores order and `sort_keys=True` prints sorted. -/
def jwf : JVal → Bool
  | .arr xs => jwfList xs
  | .obj kvs => strictSorted (kvs.map Prod.fst) && jwfObj kvs
  | _ => true

/-- All members of an array are canonical. -/
def jwfList : List JVal → Bool
  | [] => true
  | x :: xs => jwf x && jwfList xs

/-- All values of a map are canonical. -/
def jwfObj : List (String × JVal) → Bool
  | [] => true
  | (_, v) :: kvs => jwf v && jwfObj kvs

end

mutual

/-- Fuel bound for `parseVal`: enough fuel to parse `printV v`. -/
def sizeV : JVal → Nat
  | .arr [] => 1
  | .arr (x :: xs) => 1 + sizeV x + sizeArr xs
  | .obj [] => 1
  | .obj ((_, v) :: kvs) => 1 + (1 + sizeV v) + sizeObj kvs
  | _ => 1

/-- Fuel bound for `parseArrTl`. -/
def sizeArr : List JVal → Nat
  | [] => 1
  | x :: xs => 1 + sizeV x + sizeArr xs

/-- Fuel bound for `parseObjTl` (members cost one step more for the key). -/
def sizeObj : List (String × JVal) → Nat
  | [] => 1
  | (_, v) :: kvs => 1 + (1 + sizeV v) + sizeObj kvs

end

/-! ### Python argument, value and error model -/

/-- The error classes the embedded operations can surface.  `keyError`
models Python's `KeyError` (the spec's `InvalidKeyError` / `KeyNotFoundError`),
`typeError` the `TypeError` that `json.dumps` raises on a non-serializable
value, `valueError` the `ValueError` from `json.loads`, the sqlite ones the
corresponding `sqlite3` exception classes (`interfaceError` stands for the
binding failure sqlite3 raises for unsupported parameter types). -/
inductive PyErr where
  | keyError (msg : String)
  | typeError
  | valueError
  | operationalError (msg : String)
  | programmingError (msg : String)
  | interfaceError
  deriving Repr, DecidableEq

/-- A Python object passed where a key is expected: `None`, a `str`, or any
non-string object (the model does not care which). -/
inductive PyArg where
  | none
  | str (s : String)
  | nonStr
  deriving Repr, DecidableEq

/-- A Python object passed where a value is expected: JSON-encodable or not
(`json.dumps` raises `TypeError` on the latter, e.g. a set or a custom
object). -/
inductive PyObj where
  | json (v : JVal)
  | nonEncodable
  deriving Repr

/-- Model of `check_key` of the source: `KeyError` for `None` ("Invalid key: None")
or for a non-string key ("Invalid key type %s" — the class name in the real
message is elided here). -/
def check_key : PyArg → Except PyErr Unit
  | .none => .error (.keyError "Invalid key: None")
  | .nonStr => .error (.keyError "Invalid key type")
  | .str _ => .ok ()

/-- Model of `json_encode` on an arbitrary Python object: `json.dumps` raises
`TypeError` when the value is not serializable, otherwise produces
the canonical text. -/
def json_encodeAny : PyObj → Except PyErr String
  | .json v => .ok (json_encode v)
  | .nonEncodable => .error .typeError

/-- The string payload of a key argument (meaningful after `check_key`). -/
def argStr : PyArg → String
  | .str s => s
  | _ => ""

/-! ### SQLite table model

The table `(key TEXT PRIMARY KEY UNIQUE NOT NULL, value TEXT)` is modelled
as an association list of `(key, stored text)` rows kept in ascending key
order — the order the primary-key index scans (`BETWEEN` queries) return.
The PRIMARY KEY constraint makes keys unique; keeping the list sorted also
makes them unique by construction. -/

/-- Table state. -/
abbrev Db := List (String × String)

/-- Point lookup: `SELECT value FROM t WHERE key = ?`. -/
def dbLookup (k : String) : Db → Option String
  | [] => none
  | (k', v) :: t => if k' = k then some v else dbLookup k t

/-- Statement `INSERT OR REPLACE INTO t (key, value) VALUES (?, ?)`, keeping rows in
key order. -/
def dbUpsert (k v : String) : Db → Db
  | [] => [(k, v)]
  | (k', v') :: t =>
    if strLt k k' then (k, v) :: (k', v') :: t
    else if k' = k then (k, v) :: t
    else (k', v') :: dbUpsert k v t

/-- Statement `INSERT OR IGNORE INTO t (key, value) VALUES (?, ?)`. -/
def dbInsertIgnore (k v : String) (db : Db) : Db :=
  match dbLookup k db with
  | some _ => db
  | none => dbUpsert k v db

/-- Statement `DELETE FROM t WHERE key = ?`. -/
def dbDelete (k : String) (db : Db) : Db :=
  db.filter (fun r => r.1 ≠ k)

/-- Statement `SELECT ... FROM t WHERE key BETWEEN ? AND ?` (index scan, key order;
both bounds inclusive, text compared by code points as SQLite compares
TEXT by memcmp over UTF-8). -/
def dbBetween (lo hi : String) (db : Db) : Db :=
  db.filter (fun r => strLe lo r.1 && strLe r.1 hi)

/-- Key-sortedness invariant of the table model. -/
def DbWf (db : Db) : Prop := db.Chain' (fun a b => strLt a.1 b.1 = true)

/-- The TEXT-affinity rendering of a Python/SQLite integer. -/
def intStr (n : Int) : String := String.mk (intChars n)

/-- SQLite's text-to-numeric coercion as used by `value + ?`: skip leading
whitespace, then read an optional sign and the longest decimal-digit run;
anything else contributes 0.  (SQLite parses a real-number prefix — with
`.` or exponent — as a float; stored texts with such prefixes only arise
from float-valued documents, which the claims about `atomic_add` do not
exercise, so the model stays integer-valued.) -/
def sqliteToIntAux : List Char → Int
  | [] => 0
  | c :: t =>
    if c = '-' then -((takeDigits t 0).1 : Int)
    else if c = '+' then ((takeDigits t 0).1 : Int)
    else ((takeDigits (c :: t) 0).1 : Int)

/-- Whitespace skip in front of the sign/digit reader above. -/
def sqliteToInt (s : String) : Int :=
  sqliteToIntAux (skipWs s.data)

/-- Statement `UPDATE t SET value = value + ? WHERE key = ?`: returns the new state
and the affected row count.  The arithmetic coerces the stored TEXT and the
integer result is stored back under TEXT affinity. -/
def sqlUpdateAdd (k : String) (d : Int) (db : Db) : Db × Nat :=
  match dbLookup k db with
  | some s => (dbUpsert k (intStr (sqliteToInt s + d)) db, 1)
  | none => (db, 0)

/-! ### Store operations

Each operation returns its Python-level result (`Except` models raising),
the table state after the call, and the list of connection-scope events
that occurred, in order — `openWrite`/`openRead` happen when the
`_open_db_for_write`/`_open_db_for_read` context manager connects.  An
empty event list means the operation failed before any I/O. -/

/-- Scope events. -/
inductive Ev where
  | openRead
  | openWrite
  deriving Repr, DecidableEq

/-- Result of one operation. -/
structure OpResult (α : Type) where
  res : Except PyErr α
  db : Db
  evs : List Ev
  deriving Repr

/-- Operation `set`: check key, encode, then `INSERT OR REPLACE` in one write scope. -/
def set (key : PyArg) (val : PyObj) (db : Db) : OpResult Unit :=
  match check_key key with
  | .error e => ⟨.error e, db, []⟩
  | .ok _ =>
    match json_encodeAny val with
    | .error e => ⟨.error e, db, []⟩
    | .ok s => ⟨.ok (), dbUpsert (argStr key) s db, [.openWrite]⟩

/-- Operation `set_default`: check key, encode, then `INSERT OR IGNORE`. -/
def set_default (key : PyArg) (val : PyObj) (db : Db) : OpResult Unit :=
  match check_key key with
  | .error e => ⟨.error e, db, []⟩
  | .ok _ =>
    match json_encodeAny val with
    | .error e => ⟨.error e, db, []⟩
    | .ok s => ⟨.ok (), dbInsertIgnore (argStr key) s db, [.openWrite]⟩

/-- Operation `get`: check key, point lookup, decode; returns `dflt` on a miss. -/
def get (key : PyArg) (dflt : Option JVal) (db : Db) : OpResult (Option JVal) :=
  match check_key key with
  | .error e => ⟨.error e, db, []⟩
  | .ok _ =>
    match dbLookup (argStr key) db with
    | some s =>
      match json_decode s with
      | some v => ⟨.ok (some v), db, [.openRead]⟩
      | none => ⟨.error .valueError, db, [.openRead]⟩
    | none => ⟨.ok dflt, db, [.openRead]⟩

/-- Operation `get_or_raise`: like `get` but a miss raises
`KeyError('Missing key: "<key>"')`. -/
def get_or_raise (key : PyArg) (db : Db) : OpResult JVal :=
  match check_key key with
  | .error e => ⟨.error e, db, []⟩
  | .ok _ =>
    match dbLookup (argStr key) db with
    | some s =>
      match json_decode s with
      | some v => ⟨.ok v, db, [.openRead]⟩
      | none => ⟨.error .valueError, db, [.openRead]⟩
    | none =>
      ⟨.error (.keyError ("Missing key: \"" ++ argStr key ++ "\"")), db, [.openRead]⟩

/-- Operation `has_key`: check key, existence test. -/
def has_key (key : PyArg) (db : Db) : OpResult Bool :=
  match check_key key with
  | .error e => ⟨.error e, db, []⟩
  | .ok _ => ⟨.ok (dbLookup (argStr key) db).isSome, db, [.openRead]⟩

/-- Operation `keys`: all keys (no key argument, hence no validation). -/
def keys (db : Db) : OpResult (List String) :=
  ⟨.ok (db.map Prod.fst), db, [.openRead]⟩

/-- Operation `key_range`: validates both bounds, then `BETWEEN` scan over keys. -/
def key_range (key_low key_high : PyArg) (db : Db) : OpResult (List String) :=
  match check_key key_low with
  | .error e => ⟨.error e, db, []⟩
  | .ok _ =>
    match check_key key_high with
    | .error e => ⟨.error e, db, []⟩
    | .ok _ =>
      ⟨.ok ((dbBetween (argStr key_low) (argStr key_high) db).map Prod.fst),
        db, [.openRead]⟩

/-- Decode the value of every row (how the bulk readers reflate). -/
def decodeRows : List (String × String) → Except PyErr (List (String × JVal))
  | [] => .ok []
  | (k, s) :: t =>
    match json_decode s with
    | some v => (decodeRows t).map (fun l => (k, v) :: l)
    | none => .error .valueError

/-- Operation `dict_range`: validates both bounds, `BETWEEN` scan, decodes values. -/
def dict_range (key_low key_high : PyArg) (db : Db) :
    OpResult (List (String × JVal)) :=
  match check_key key_low with
  | .error e => ⟨.error e, db, []⟩
  | .ok _ =>
    match check_key key_high with
    | .error e => ⟨.error e, db, []⟩
    | .ok _ =>
      ⟨decodeRows (dbBetween (argStr key_low) (argStr key_high) db),
        db, [.openRead]⟩

/-- Bind the two range bounds of `get_range` without prior validation:
a `None` bound becomes SQL `NULL`, and `x BETWEEN NULL AND y` is never
true, so the scan yields no rows; binding a non-string, non-None object
fails inside the scope with a sqlite3 binding error. -/
def bindRange (lo hi : PyArg) (db : Db) : Except PyErr (List (String × String)) :=
  match lo, hi with
  | .nonStr, _ => .error .interfaceError
  | _, .nonStr => .error .interfaceError
  | .none, _ => .ok []
  | _, .none => .ok []
  | .str l, .str h => .ok (dbBetween l h db)

/-- Operation `get_range`: NOTE — the source performs no `check_key` on either bound;
the bounds go straight into the query. -/
def get_range (key_low key_high : PyArg) (db : Db) :
    OpResult (List (String × JVal)) :=
  match bindRange key_low key_high db with
  | .error e => ⟨.error e, db, [.openRead]⟩
  | .ok rows => ⟨decodeRows rows, db, [.openRead]⟩

/-- The raw lookup loop of `get_many`: one point query per key, missing
keys silently skipped.  NOTE — the source performs no `check_key` on the
elements; a `None` element binds as SQL `NULL` and matches nothing, a
non-string element fails at bind time inside the scope. -/
def getManyRaw : List PyArg → Db → Except PyErr (List (String × String))
  | [], _ => .ok []
  | .none :: t, db => getManyRaw t db
  | .nonStr :: _, _ => .error .interfaceError
  | .str k :: t, db =>
    match dbLookup k db with
    | some s => (getManyRaw t db).map (fun l => (k, s) :: l)
    | none => getManyRaw t db

/-- Operation `get_many`: batch lookups in one read scope, decoded after the loop. -/
def get_many (a_set : List PyArg) (db : Db) : OpResult (List (String × JVal)) :=
  match getManyRaw a_set db with
  | .error e => ⟨.error e, db, [.openRead]⟩
  | .ok rows => ⟨decodeRows rows, db, [.openRead]⟩

/-- Operation `remove`: check key, delete; `rowcount == 1` (the key existed — unique
by PRIMARY KEY) returns, otherwise `KeyError(key)` unless
`ignore_missing_key`. -/
def remove (key : PyArg) (ignore_missing_key : Bool) (db : Db) : OpResult Unit :=
  match check_key key with
  | .error e => ⟨.error e, db, []⟩
  | .ok _ =>
    let rowcount : Nat := if (dbLookup (argStr key) db).isSome then 1 else 0
    let db' := dbDelete (argStr key) db
    if rowcount = 1 then ⟨.ok (), db', [.openWrite]⟩
    else if ignore_missing_key then ⟨.ok (), db', [.openWrite]⟩
    else ⟨.error (.keyError (argStr key)), db', [.openWrite]⟩

/-- Operation `clear`: delete every row; the table itself remains. -/
def clear (db : Db) : OpResult Unit :=
  ⟨.ok (), [], [.openWrite]⟩

/-- Key validation pass of the batch operations (`for key in a_dict:
check_key(key)`) — fail-fast, before anything is encoded or written. -/
def checkKeys : List (PyArg × PyObj) → Except PyErr Unit
  | [] => .ok ()
  | (k, _) :: t =>
    match check_key k with
    | .error e => .error e
    | .ok _ => checkKeys t

/-- Record construction of the batch operations
(`[(key, json_encode(val)) for key, val in a_dict.items()]`) — evaluated
in full before the connection opens; the first non-encodable value
raises `TypeError`. -/
def encodeRecords : List (PyArg × PyObj) → Except PyErr (List (String × String))
  | [] => .ok []
  | (k, v) :: t =>
    match json_encodeAny v with
    | .error e => .error e
    | .ok s => (encodeRecords t).map (fun l => (argStr k, s) :: l)

/-- Loop `executemany` of `INSERT OR REPLACE`. -/
def applyUpserts : List (String × String) → Db → Db
  | [], db => db
  | (k, s) :: t, db => applyUpserts t (dbUpsert k s db)

/-- Loop `executemany` of `INSERT OR IGNORE`. -/
def applyIgnores : List (String × String) → Db → Db
  | [], db => db
  | (k, s) :: t, db => applyIgnores t (dbInsertIgnore k s db)

/-- Operation `update`: validate all keys, encode all values, then one multi-row
upsert transaction.  The dict argument is modelled as its item list (dict
keys are unique). -/
def update (a_dict : List (PyArg × PyObj)) (db : Db) : OpResult Unit :=
  match checkKeys a_dict with
  | .error e => ⟨.error e, db, []⟩
  | .ok _ =>
    match encodeRecords a_dict with
    | .error e => ⟨.error e, db, []⟩
    | .ok recs => ⟨.ok (), applyUpserts recs db, [.openWrite]⟩

/-- Operation `insert_or_ignore`: validate all keys, encode all values, then one
multi-row insert-if-absent transaction. -/
def insert_or_ignore (a_dict : List (PyArg × PyObj)) (db : Db) : OpResult Unit :=
  match checkKeys a_dict with
  | .error e => ⟨.error e, db, []⟩
  | .ok _ =>
    match encodeRecords a_dict with
    | .error e => ⟨.error e, db, []⟩
    | .ok recs => ⟨.ok (), applyIgnores recs db, [.openWrite]⟩

/-- Operation `to_dict`: full snapshot, every value decoded. -/
def to_dict (db : Db) : OpResult (List (String × JVal)) :=
  ⟨decodeRows db, db, [.openRead]⟩

/-- Method `__repr__`: `json.dumps(self.to_dict(), sort_keys=True, indent=indent,
ensure_ascii=False)` where `indent` is 4 when the snapshot has at least two
entries and `None` otherwise.  (The snapshot's keys are already in sorted
order here because the table model is key-sorted.) -/
def reprStore (db : Db) : OpResult String :=
  match decodeRows db with
  | .error e => ⟨.error e, db, [.openRead]⟩
  | .ok out =>
    ⟨.ok (pyDumps (if 2 ≤ out.length then some 4 else none) (.obj out)),
      db, [.openRead]⟩

/-- Operation `atomic_add`: check key; in one write scope run
`UPDATE t SET value = value + ? WHERE key = ?`, and if it affected zero
rows (key absent) `INSERT INTO t (key, value) VALUES (?, ?)` with the
delta; commit. -/
def atomic_add (key : PyArg) (value : Int) (db : Db) : OpResult Unit :=
  match check_key key with
  | .error e => ⟨.error e, db, []⟩
  | .ok _ =>
    let r := sqlUpdateAdd (argStr key) value db
    let db2 := if r.2 = 0 then dbUpsert (argStr key) (intStr value) r.1 else r.1
    ⟨.ok (), db2, [.openWrite]⟩

/-! ### Schema bootstrap (`create_table`) under a first-use race -/

/-- Statement `CREATE TABLE` against the engine: SQLite raises
`sqlite3.OperationalError("table <t> already exists")` when the table is
already there (it never raises `ProgrammingError` for this). -/
def executeCreateTable (existsAtCreate : Bool) (table : String) : Except PyErr Unit :=
  if existsAtCreate then
    .error (.operationalError ("table " ++ table ++ " already exists"))
  else .ok ()

/-- Model of `create_table` of the source with the race made explicit:
`existsAtCheck` is what the catalog query in the read scope sees, and
`existsAtCreate` whether the table exists by the time `CREATE TABLE`
executes (a racing initializer can create it in between).  The source's
`try`/`except` catches only `sqlite3.ProgrammingError`. -/
def create_table (table : String) (existsAtCheck existsAtCreate : Bool) :
    Except PyErr Unit :=
  if existsAtCheck then .ok ()
  else
    match executeCreateTable existsAtCreate table with
    | .ok _ => .ok ()
    | .error e =>
      match e with
      | .programmingError _ => .ok ()
      | _ => .error e

/-! ### Concurrent `atomic_add` system

SQLite allows a single writer per database file: the `UPDATE` statement
acquires the writer lock, which the transaction keeps through the rowcount
check, the conditional `INSERT` and the `COMMIT`.  A concurrent
`atomic_add` blocks at its own `UPDATE` until the lock is released (the
60-second busy timeout of the source).  The whole transaction body is
therefore one mutual-exclusion region, modelled as a `start` step that
acquires the lock and stages the transaction's result, and a `commit`
step that publishes it and releases the lock.  Interleavings choose which
thread starts next. -/

/-- The body of one `atomic_add` transaction, as a state transformer. -/
def applyAdd (k : String) (d : Int) (db : Db) : Db :=
  let r := sqlUpdateAdd k d db
  if r.2 = 0 then dbUpsert k (intStr d) r.1 else r.1

/-- Progress of one thread. -/
inductive Phase where
  | idle
  | applied
  | done
  deriving DecidableEq, Repr

/-- State of the concurrent system: committed table state, the lock
holder's staged (uncommitted) state if any, and each thread's phase. -/
structure AddSys (n : Nat) where
  db : Db
  txn : Option (Fin n × Db)
  pcs : Fin n → Phase

/-- One scheduler step: thread `i` runs `atomic_add(k, d i)`. -/
inductive AddStep (n : Nat) (k : String) (d : Fin n → Int) :
    AddSys n → AddSys n → Prop
  | start (s : AddSys n) (i : Fin n) :
      s.pcs i = .idle → s.txn = Option.none →
      AddStep n k d s
        ⟨s.db, some (i, applyAdd k (d i) s.db), Function.update s.pcs i .applied⟩
  | commit (s : AddSys n) (i : Fin n) (db' : Db) :
      s.pcs i = .applied → s.txn = some (i, db') →
      AddStep n k d s ⟨db', Option.none, Function.update s.pcs i .done⟩

/-- Initial state: no thread has run, no lock held. -/
def initSys (n : Nat) (db0 : Db) : AddSys n := ⟨db0, Option.none, fun _ => .idle⟩

/-! ## Lemmas about decimal digits -/

theorem natDigitsAux_succ (g n : Nat) :
    natDigitsAux (g + 1) n =
      if n < 10 then [digitChar n]
      else natDigitsAux g (n / 10) ++ [digitChar (n % 10)] := rfl

theorem natDigitsAux_irrel (n : Nat) : ∀ f, n < f → natDigitsAux f n = natDigits n := by
  induction n using Nat.strong_induction_on with
  | _ n ih =>
    intro f hf
    obtain ⟨g, rfl⟩ : ∃ g, f = g + 1 := ⟨f - 1, by omega⟩
    by_cases h10 : n < 10
    · simp [natDigits, natDigitsAux_succ, h10]
    · have hd : n / 10 < n := Nat.div_lt_self (by omega) (by omega)
      have h1 : natDigitsAux g (n / 10) = natDigits (n / 10) :=
        ih (n / 10) hd g (by omega)
      have h2 : natDigits n = natDigitsAux n (n / 10) ++ [digitChar (n % 10)] := by
        unfold natDigits
        rw [natDigitsAux_succ]
        simp [h10]
      have h3 : natDigitsAux n (n / 10) = natDigits (n / 10) := ih (n / 10) hd n hd
      rw [natDigitsAux_succ, if_neg h10, h1, h2, h3]

theorem natDigits_def (n : Nat) :
    natDigits n =
      if n < 10 then [digitChar n]
      else natDigits (n / 10) ++ [digitChar (n % 10)] := by
  by_cases h10 : n < 10
  · simp [natDigits, natDigitsAux_succ, h10]
  · have hd : n / 10 < n := Nat.div_lt_self (by omega) (by omega)
    rw [if_neg h10]
    show natDigitsAux (n + 1) n = _
    rw [natDigitsAux_succ, if_neg h10, natDigitsAux_irrel (n / 10) n hd]

theorem digitChar_isDigit (d : Nat) (h : d < 10) : isDigitCh (digitChar d) = true := by
  interval_cases d <;> decide

theorem digitChar_val (d : Nat) (h : d < 10) : digitVal (digitChar d) = d := by
  interval_cases d <;> decide

theorem natDigits_all_digits (n : Nat) : ∀ c ∈ natDigits n, isDigitCh c = true := by
  induction n using Nat.strong_induction_on with
  | _ n ih =>
    rw [natDigits_def]
    by_cases h10 : n < 10
    · simp [h10]
      exact digitChar_isDigit n h10
    · have hd : n / 10 < n := Nat.div_lt_self (by omega) (by omega)
      simp [h10]
      intro c hc
      rcases hc with h | h
      · exact ih (n / 10) hd c h
      · rw [h]
        exact digitChar_isDigit (n % 10) (Nat.mod_lt n (by omega))

theorem natDigits_ne_nil (n : Nat) : natDigits n ≠ [] := by
  rw [natDigits_def]
  by_cases h10 : n < 10 <;> simp [h10]

/-- Inputs whose first character (if any) is not a digit. -/
def HeadNotDigit (cs : List Char) : Prop :=
  ∀ c, cs.head? = some c → isDigitCh c = false

theorem headNotDigit_nil : HeadNotDigit [] := by
  intro c h
  simp at h

theorem headNotDigit_cons {c : Char} (h : isDigitCh c = false) (t : List Char) :
    HeadNotDigit (c :: t) := by
  intro c' hc'
  simp at hc'
  rwa [hc'] at h

theorem takeDigits_run (ds : List Char) :
    ∀ rest acc, (∀ c ∈ ds, isDigitCh c = true) → HeadNotDigit rest →
      takeDigits (ds ++ rest) acc =
        (ds.foldl (fun a c => 10 * a + digitVal c) acc, ds.length, rest) := by
  induction ds with
  | nil =>
    intro rest acc _ hr
    match rest with
    | [] => rfl
    | c :: t =>
      have : isDigitCh c = false := hr c rfl
      simp [takeDigits, this]
  | cons c ds ih =>
    intro rest acc hd hr
    have hc : isDigitCh c = true := hd c (by simp)
    simp only [List.cons_append, takeDigits, hc, if_true, List.append_eq]
    rw [ih rest (10 * acc + digitVal c) (fun x hx => hd x (by simp [hx])) hr]
    simp

theorem foldl_natDigits (n : Nat) :
    ∀ acc, (natDigits n).foldl (fun a c => 10 * a + digitVal c) acc =
      acc * 10 ^ (natDigits n).length + n := by
  induction n using Nat.strong_induction_on with
  | _ n ih =>
    intro acc
    rw [natDigits_def]
    by_cases h10 : n < 10
    · simp [h10, digitChar_val n h10]
      ring
    · have hd : n / 10 < n := Nat.div_lt_self (by omega) (by omega)
      simp only [h10, if_false, List.foldl_append, List.length_append,
        List.foldl_cons, List.foldl_nil, List.length_cons, List.length_nil]
      rw [ih (n / 10) hd acc]
      rw [digitChar_val (n % 10) (Nat.mod_lt n (by omega))]
      have : acc * 10 ^ ((natDigits (n / 10)).length + (0 + 1)) =
          (acc * 10 ^ (natDigits (n / 10)).length) * 10 := by
        ring
      rw [this]
      omega

theorem takeDigits_natDigits (n : Nat) (rest : List Char) (hr : HeadNotDigit rest) :
    takeDigits (natDigits n ++ rest) 0 = (n, (natDigits n).length, rest) := by
  rw [takeDigits_run (natDigits n) rest 0 (natDigits_all_digits n) hr]
  rw [foldl_natDigits n 0]
  simp

/-! ## Character-class helpers -/

theorem ws_toNat {c : Char} (h : isWsChar c = true) :
    c.toNat = 32 ∨ c.toNat = 9 ∨ c.toNat = 10 ∨ c.toNat = 13 := by
  simp [isWsChar] at h
  rcases h with ((h | h) | h) | h <;> subst h <;> simp

theorem digit_not_ws {c : Char} (h : isDigitCh c = true) : isWsChar c = false := by
  by_contra hw
  rw [Bool.not_eq_false] at hw
  simp [isDigitCh] at h
  rcases ws_toNat hw with h' | h' | h' | h' <;> omega

theorem ne_of_digit_vs {c c' : Char} (h : isDigitCh c = true)
    (h' : isDigitCh c' = false) : c ≠ c' := by
  intro e
  rw [e, h'] at h
  cases h

theorem skipWs_cons_not {c : Char} (h : isWsChar c = false) (t : List Char) :
    skipWs (c :: t) = c :: t := by
  simp [skipWs, h]

/-- Head and rest of `natDigits`: it is nonempty and starts with a digit. -/
theorem natDigits_head (n : Nat) :
    ∃ c t, natDigits n = c :: t ∧ isDigitCh c = true := by
  match hc : natDigits n with
  | [] => exact absurd hc (natDigits_ne_nil n)
  | c :: t =>
    refine ⟨c, t, rfl, ?_⟩
    exact natDigits_all_digits n c (by rw [hc]; simp)

/-! ## SQLite coercion of integer text -/

theorem intStr_data (n : Int) : (intStr n).data = intChars n := rfl

theorem sqliteToInt_intStr (n : Int) : sqliteToInt (intStr n) = n := by
  obtain ⟨c, t, hct, hdig⟩ := natDigits_head n.natAbs
  have hnil : natDigits n.natAbs = natDigits n.natAbs ++ [] := by simp
  by_cases hn : n < 0
  · show sqliteToIntAux (skipWs (intChars n)) = n
    rw [intChars, if_pos hn, skipWs_cons_not (by decide)]
    simp only [sqliteToIntAux, reduceIte]
    rw [hnil, takeDigits_natDigits n.natAbs [] headNotDigit_nil]
    show -((n.natAbs : Int)) = n
    omega
  · show sqliteToIntAux (skipWs (intChars n)) = n
    rw [intChars, if_neg hn, hct, skipWs_cons_not (digit_not_ws hdig)]
    simp only [sqliteToIntAux]
    rw [if_neg (ne_of_digit_vs hdig (by decide)), if_neg (ne_of_digit_vs hdig (by decide))]
    rw [← hct, hnil, takeDigits_natDigits n.natAbs [] headNotDigit_nil]
    show ((n.natAbs : Int)) = n
    omega

/-! ## String-literal round trip -/

theorem hexVal_hexChar (d : Nat) (h : d < 16) : hexVal (hexChar d) = some d := by
  interval_cases d <;> decide

theorem hex4_ctrl (a b : Nat) (ha : a < 16) (hb : b < 16) :
    hex4 '0' '0' (hexChar a) (hexChar b) = some (a * 16 + b) := by
  have h0 : hexVal '0' = some 0 := by decide
  rw [hex4, h0, hexVal_hexChar a ha, hexVal_hexChar b hb]
  simp only [Option.some.injEq]
  omega

theorem parseStrBody_quote (rest : List Char) :
    parseStrBody ('"' :: rest) = some ([], rest) := by
  rw [parseStrBody.eq_def]
  rfl

theorem parseStrBody_u (h3 h4 : Char) (t : List Char) :
    parseStrBody ('\\' :: 'u' :: '0' :: '0' :: h3 :: h4 :: t) =
      match hex4 '0' '0' h3 h4 with
      | some n =>
        if n < 0xD800 || 0xDFFF < n then consFst (Char.ofNat n) (parseStrBody t)
        else none
      | none => none := by
  rw [parseStrBody.eq_def]
  rfl

theorem parseStrBody_other {c : Char} (h1 : c ≠ '"') (h2 : c ≠ '\\')
    (t : List Char) : parseStrBody (c :: t) = consFst c (parseStrBody t) := by
  rw [parseStrBody.eq_def]
  simp only []
  rw [if_neg h1, if_neg h2]

theorem parseStrBody_print (s : List Char) : ∀ rest,
    parseStrBody ((s.map escapeChar).flatten ++ '"' :: rest) = some (s, rest) := by
  induction s with
  | nil =>
    intro rest
    simp [parseStrBody_quote]
  | cons c cs ih =>
    intro rest
    simp only [List.map_cons, List.flatten_cons, List.append_assoc]
    by_cases h1 : c = '"'
    · subst h1
      have he : escapeChar '"' = ['\\', '"'] := by decide
      rw [he]
      simp only [List.cons_append, List.nil_append]
      rw [parseStrBody.eq_def]
      simp only [reduceIte]
      rw [ih rest]
      rfl
    by_cases h2 : c = '\\'
    · subst h2
      have he : escapeChar '\\' = ['\\', '\\'] := by decide
      rw [he]
      simp only [List.cons_append, List.nil_append]
      rw [parseStrBody.eq_def]
      simp only [reduceIte]
      rw [ih rest]
      rfl
    by_cases h3 : c = '\n'
    · subst h3
      have he : escapeChar '\n' = ['\\', 'n'] := by decide
      rw [he]
      simp only [List.cons_append, List.nil_append]
      rw [parseStrBody.eq_def]
      simp only [reduceIte]
      rw [ih rest]
      rfl
    by_cases h4 : c = '\t'
    · subst h4
      have he : escapeChar '\t' = ['\\', 't'] := by decide
      rw [he]
      simp only [List.cons_append, List.nil_append]
      rw [parseStrBody.eq_def]
      simp only [reduceIte]
      rw [ih rest]
      rfl
    by_cases h5 : c = '\r'
    · subst h5
      have he : escapeChar '\r' = ['\\', 'r'] := by decide
      rw [he]
      simp only [List.cons_append, List.nil_append]
      rw [parseStrBody.eq_def]
      simp only [reduceIte]
      rw [ih rest]
      rfl
    by_cases h6 : c = Char.ofNat 8
    · subst h6
      have he : escapeChar (Char.ofNat 8) = ['\\', 'b'] := by decide
      rw [he]
      simp only [List.cons_append, List.nil_append]
      rw [parseStrBody.eq_def]
      simp only [reduceIte]
      rw [ih rest]
      rfl
    by_cases h7 : c = Char.ofNat 12
    · subst h7
      have he : escapeChar (Char.ofNat 12) = ['\\', 'f'] := by decide
      rw [he]
      simp only [List.cons_append, List.nil_append]
      rw [parseStrBody.eq_def]
      simp only [reduceIte]
      rw [ih rest]
      rfl
    by_cases h8 : c.toNat < 32
    · have he : escapeChar c =
          ['\\', 'u', '0', '0', hexChar (c.toNat / 16), hexChar (c.toNat % 16)] := by
        simp [escapeChar, h1, h2, h3, h4, h5, h6, h7, h8]
      rw [he]
      simp only [List.cons_append, List.nil_append]
      rw [parseStrBody_u]
      rw [hex4_ctrl (c.toNat / 16) (c.toNat % 16) (by omega) (by omega)]
      have hn : c.toNat / 16 * 16 + c.toNat % 16 = c.toNat := by omega
      rw [hn]
      simp only []
      rw [if_pos (by
        rw [Bool.or_eq_true, decide_eq_true_eq, decide_eq_true_eq]
        left
        omega)]
      rw [Char.ofNat_toNat, ih rest]
      rfl
    · have he : escapeChar c = [c] := by
        simp [escapeChar, h1, h2, h3, h4, h5, h6, h7, h8]
      rw [he]
      simp only [List.cons_append, List.nil_append]
      rw [parseStrBody_other h1 h2, ih rest]
      rfl

/-! ## Numeric-token round trip -/

/-- What may follow a printed value: end of input, or a separator/closer
(exactly what the printer emits after a nested value). -/
def StopCh (cs : List Char) : Prop :=
  match cs with
  | [] => True
  | c :: _ => c = ',' ∨ c = ']' ∨ c = '}'

theorem stopCh_headNotDigit {rest : List Char} (h : StopCh rest) :
    HeadNotDigit rest := by
  match rest, h with
  | [], _ => exact headNotDigit_nil
  | c :: t, h =>
    rcases h with h | h | h <;> subst h <;> exact headNotDigit_cons (by decide) t

theorem signSplit_neg (t : List Char) : signSplit ('-' :: t) = (true, t) := rfl

theorem signSplit_digit {c : Char} (h : isDigitCh c = true) (t : List Char) :
    signSplit (c :: t) = (false, c :: t) := by
  have hne : c ≠ '-' := ne_of_digit_vs h (show isDigitCh '-' = false from by decide)
  simp [signSplit, hne]

theorem signSplitE_neg (t : List Char) : signSplitE ('-' :: t) = (true, t) := rfl

theorem signSplitE_digit {c : Char} (h : isDigitCh c = true) (t : List Char) :
    signSplitE (c :: t) = (false, c :: t) := by
  have hne : c ≠ '-' := ne_of_digit_vs h (show isDigitCh '-' = false from by decide)
  have hne2 : c ≠ '+' := ne_of_digit_vs h (show isDigitCh '+' = false from by decide)
  simp [signSplitE, hne, hne2]

theorem parseExpPart_stop (neg isF : Bool) (m fc : Nat) (rest : List Char)
    (hr : StopCh rest) :
    parseExpPart neg isF m fc rest =
      if isF then some (.float (appSign neg m) (-(fc : Int)), rest)
      else some (.int (appSign neg m), rest) := by
  match rest, hr with
  | [], _ => rfl
  | c :: t, hr =>
    rcases hr with h | h | h <;> subst h <;> rfl

theorem parseExpDigits_print (neg : Bool) (m fc : Nat) (e : Int) (rest : List Char)
    (hr : StopCh rest) :
    parseExpDigits neg m fc (intChars e ++ rest) =
      some (.float (appSign neg m) (e - (fc : Int)), rest) := by
  obtain ⟨c, t, hct, hdig⟩ := natDigits_head e.natAbs
  have hrd : HeadNotDigit rest := stopCh_headNotDigit hr
  by_cases he : e < 0
  · rw [intChars, if_pos he]
    show parseExpDigits neg m fc ('-' :: natDigits e.natAbs ++ rest) = _
    rw [parseExpDigits, List.cons_append, signSplitE_neg]
    simp only []
    rw [hct, List.cons_append]
    simp only [hdig, if_true, reduceIte]
    rw [← List.cons_append, ← hct, takeDigits_natDigits e.natAbs rest hrd]
    simp only []
    have : appSign true e.natAbs = e := by
      simp only [appSign, reduceIte]
      rw [Int.ofNat_natAbs_of_nonpos (le_of_lt he)]
      exact neg_neg e
    rw [this]
  · rw [intChars, if_neg he, hct, List.cons_append]
    rw [parseExpDigits, signSplitE_digit hdig]
    simp only []
    simp only [hdig, if_true, reduceIte]
    rw [← List.cons_append, ← hct, takeDigits_natDigits e.natAbs rest hrd]
    simp only []
    have : appSign false e.natAbs = e := by
      simp only [appSign, reduceIte]
      exact Int.natAbs_of_nonneg (by omega)
    rw [this]

theorem parseNum_int_core (sgn : Bool) (v : Nat) (rest : List Char) (hr : StopCh rest)
    (cs : List Char) (hcs : signSplit cs = (sgn, natDigits v ++ rest)) :
    parseNum cs = some (.int (appSign sgn v), rest) := by
  obtain ⟨c, t, hct, hdig⟩ := natDigits_head v
  simp only [parseNum]
  rw [hcs]
  simp only []
  rw [hct, List.cons_append]
  simp only [hdig, reduceIte]
  rw [← List.cons_append, ← hct, takeDigits_natDigits v rest (stopCh_headNotDigit hr)]
  simp only []
  cases rest with
  | nil => rfl
  | cons c2 t2 =>
    rcases hr with h | h | h <;> subst h <;> rfl

theorem parseNum_float_core (sgn : Bool) (v : Nat) (e : Int) (rest : List Char)
    (hr : StopCh rest) (cs : List Char)
    (hcs : signSplit cs = (sgn, natDigits v ++ ('e' :: (intChars e ++ rest)))) :
    parseNum cs = some (.float (appSign sgn v) e, rest) := by
  obtain ⟨c, t, hct, hdig⟩ := natDigits_head v
  simp only [parseNum]
  rw [hcs]
  simp only []
  rw [hct, List.cons_append]
  simp only [hdig, reduceIte]
  rw [← List.cons_append, ← hct,
    takeDigits_natDigits v ('e' :: (intChars e ++ rest)) (headNotDigit_cons (by decide) _)]
  refine Eq.trans (show _ = parseExpDigits sgn v 0 (intChars e ++ rest) from rfl) ?_
  rw [parseExpDigits_print sgn v 0 e rest hr]
  norm_num

theorem parseNum_int (n : Int) (rest : List Char) (hr : StopCh rest) :
    parseNum (intChars n ++ rest) = some (.int n, rest) := by
  by_cases hn : n < 0
  · have hs : signSplit (intChars n ++ rest) = (true, natDigits n.natAbs ++ rest) := by
      rw [intChars, if_pos hn, List.cons_append, signSplit_neg]
    rw [parseNum_int_core true n.natAbs rest hr _ hs]
    have : appSign true n.natAbs = n := by
      simp only [appSign, reduceIte]
      rw [Int.ofNat_natAbs_of_nonpos (le_of_lt hn)]
      exact neg_neg n
    rw [this]
  · obtain ⟨c, t, hct, hdig⟩ := natDigits_head n.natAbs
    have hs : signSplit (intChars n ++ rest) = (false, natDigits n.natAbs ++ rest) := by
      rw [intChars, if_neg hn, hct, List.cons_append, signSplit_digit hdig,
        ← List.cons_append, ← hct]
    rw [parseNum_int_core false n.natAbs rest hr _ hs]
    have : appSign false n.natAbs = n := by
      simp only [appSign, reduceIte]
      exact Int.natAbs_of_nonneg (by omega)
    rw [this]

theorem parseNum_float (m e : Int) (rest : List Char) (hr : StopCh rest) :
    parseNum (intChars m ++ 'e' :: (intChars e ++ rest)) = some (.float m e, rest) := by
  by_cases hm : m < 0
  · have hs : signSplit (intChars m ++ 'e' :: (intChars e ++ rest)) =
        (true, natDigits m.natAbs ++ ('e' :: (intChars e ++ rest))) := by
      rw [intChars, if_pos hm, List.cons_append, signSplit_neg]
    rw [parseNum_float_core true m.natAbs e rest hr _ hs]
    have : appSign true m.natAbs = m := by
      simp only [appSign, reduceIte]
      rw [Int.ofNat_natAbs_of_nonpos (le_of_lt hm)]
      exact neg_neg m
    rw [this]
  · obtain ⟨c, t, hct, hdig⟩ := natDigits_head m.natAbs
    have hs : signSplit (intChars m ++ 'e' :: (intChars e ++ rest)) =
        (false, natDigits m.natAbs ++ ('e' :: (intChars e ++ rest))) := by
      rw [intChars, if_neg hm, hct, List.cons_append, signSplit_digit hdig,
        ← List.cons_append, ← hct]
    rw [parseNum_float_core false m.natAbs e rest hr _ hs]
    have : appSign false m.natAbs = m := by
      simp only [appSign, reduceIte]
      exact Int.natAbs_of_nonneg (by omega)
    rw [this]

/-! ## Printer/parser round trip -/

theorem sizeV_pos (v : JVal) : 1 ≤ sizeV v := by
  match v with
  | .null | .bool _ | .int _ | .float _ _ | .str _ => simp only [sizeV]; omega
  | .arr [] => simp only [sizeV]; omega
  | .arr (x :: xs) => simp only [sizeV]; omega
  | .obj [] => simp only [sizeV]; omega
  | .obj ((k, v) :: kvs) => simp only [sizeV]; omega

theorem sizeArr_pos (xs : List JVal) : 1 ≤ sizeArr xs := by
  match xs with
  | [] => simp only [sizeArr]; omega
  | x :: xs => simp only [sizeArr]; omega

theorem sizeObj_pos (kvs : List (String × JVal)) : 1 ≤ sizeObj kvs := by
  match kvs with
  | [] => simp only [sizeObj]; omega
  | (k, v) :: kvs => simp only [sizeObj]; omega

/-- Every printed value starts with a character that is neither whitespace
nor a closer (`]`, `}`) — so a leading `skipWs` is a no-op and the closer
tests in the container parsers fail on it. -/
theorem printV_headOk (v : JVal) :
    ∃ c t, printV v = c :: t ∧ isWsChar c = false ∧ c ≠ ']' ∧ c ≠ '}' := by
  have hnum : ∀ n : Int, ∃ c t, intChars n = c :: t ∧
      isWsChar c = false ∧ c ≠ ']' ∧ c ≠ '}' := by
    intro n
    obtain ⟨c, t, hct, hdig⟩ := natDigits_head n.natAbs
    by_cases hn : n < 0
    · exact ⟨'-', natDigits n.natAbs, by rw [intChars, if_pos hn], by decide,
        by decide, by decide⟩
    · refine ⟨c, t, by rw [intChars, if_neg hn, hct], digit_not_ws hdig,
        ne_of_digit_vs hdig (by decide), ne_of_digit_vs hdig (by decide)⟩
  match v with
  | .null => exact ⟨'n', _, rfl, by decide, by decide, by decide⟩
  | .bool true => exact ⟨'t', _, rfl, by decide, by decide, by decide⟩
  | .bool false => exact ⟨'f', _, rfl, by decide, by decide, by decide⟩
  | .int n =>
    obtain ⟨c, t, hct, h1, h2, h3⟩ := hnum n
    exact ⟨c, t, by simp only [printV]; exact hct, h1, h2, h3⟩
  | .float m e =>
    obtain ⟨c, t, hct, h1, h2, h3⟩ := hnum m
    refine ⟨c, t ++ 'e' :: intChars e, ?_, h1, h2, h3⟩
    simp only [printV, hct, List.cons_append]
  | .str s => exact ⟨'"', _, rfl, by decide, by decide, by decide⟩
  | .arr [] => exact ⟨'[', _, rfl, by decide, by decide, by decide⟩
  | .arr (x :: xs) => exact ⟨'[', _, rfl, by decide, by decide, by decide⟩
  | .obj [] => exact ⟨'{', _, rfl, by decide, by decide, by decide⟩
  | .obj ((k, v) :: kvs) => exact ⟨'{', _, rfl, by decide, by decide, by decide⟩

theorem stopCh_arrTail (xs : List JVal) (rest : List Char) :
    StopCh (printArrTail xs ++ ']' :: rest) := by
  cases xs with
  | nil => simp [printArrTail, StopCh]
  | cons x xs => simp [printArrTail, StopCh]

theorem stopCh_objTail (kvs : List (String × JVal)) (rest : List Char) :
    StopCh (printObjTail kvs ++ '}' :: rest) := by
  match kvs with
  | [] => simp [printObjTail, StopCh]
  | (k, v) :: kvs => simp [printObjTail, StopCh]

theorem parseVal_cons_ws (f : Nat) (l : List Char) :
    parseVal f (' ' :: l) = parseVal f l := by
  cases f with
  | zero => rfl
  | succ f =>
    rw [parseVal.eq_def, parseVal.eq_def]
    simp only []
    have h : skipWs (' ' :: l) = skipWs l := rfl
    rw [h]

theorem parseMember_cons_ws (f : Nat) (l : List Char) :
    parseMember f (' ' :: l) = parseMember f l := by
  cases f with
  | zero => rfl
  | succ f =>
    rw [parseMember.eq_def, parseMember.eq_def]
    simp only []
    have h : skipWs (' ' :: l) = skipWs l := rfl
    rw [h]

theorem parse_print (fuel : Nat) :
    (∀ v rest, sizeV v ≤ fuel → StopCh rest →
      parseVal fuel (printV v ++ rest) = some (v, rest)) ∧
    (∀ xs rest, sizeArr xs ≤ fuel →
      parseArrTl fuel (printArrTail xs ++ ']' :: rest) = some (xs, rest)) ∧
    (∀ kvs rest, sizeObj kvs ≤ fuel →
      parseObjTl fuel (printObjTail kvs ++ '}' :: rest) = some (kvs, rest)) ∧
    (∀ (k : String) v rest, sizeV v + 1 ≤ fuel → StopCh rest →
      parseMember fuel ('"' :: (escBody k ++ '"' :: ':' :: ' ' :: (printV v ++ rest))) =
        some ((k, v), rest)) := by
  induction fuel with
  | zero =>
    refine ⟨?_, ?_, ?_, ?_⟩
    · intro v rest hsz _
      have := sizeV_pos v
      omega
    · intro xs rest hsz
      have := sizeArr_pos xs
      omega
    · intro kvs rest hsz
      have := sizeObj_pos kvs
      omega
    · intro k v rest hsz _
      have := sizeV_pos v
      omega
  | succ fuel ih =>
    obtain ⟨ihV, ihA, ihO, ihM⟩ := ih
    refine ⟨?_, ?_, ?_, ?_⟩
    · intro v rest hsz hstop
      match v with
      | .null => rfl
      | .bool true => rfl
      | .bool false => rfl
      | .int n =>
        simp only [printV]
        by_cases hn : n < 0
        · rw [intChars, if_pos hn, List.cons_append]
          rw [parseVal.eq_def]
          simp only []
          rw [skipWs_cons_not (by decide)]
          simp only [Char.reduceEq, reduceIte]
          rw [parseNum_int_core true n.natAbs rest hstop _ (signSplit_neg _)]
          have : appSign true n.natAbs = n := by
            simp only [appSign, reduceIte]
            rw [Int.ofNat_natAbs_of_nonpos (le_of_lt hn)]
            exact neg_neg n
          rw [this]
        · obtain ⟨c, t, hct, hdig⟩ := natDigits_head n.natAbs
          rw [intChars, if_neg hn, hct, List.cons_append]
          rw [parseVal.eq_def]
          simp only []
          rw [skipWs_cons_not (digit_not_ws hdig)]
          simp only []
          rw [if_neg (ne_of_digit_vs hdig (show isDigitCh '"' = false from by decide)),
            if_neg (ne_of_digit_vs hdig (show isDigitCh '[' = false from by decide)),
            if_neg (ne_of_digit_vs hdig (show isDigitCh '{' = false from by decide)),
            if_neg (ne_of_digit_vs hdig (show isDigitCh 'n' = false from by decide)),
            if_neg (ne_of_digit_vs hdig (show isDigitCh 't' = false from by decide)),
            if_neg (ne_of_digit_vs hdig (show isDigitCh 'f' = false from by decide))]
          rw [parseNum_int_core false n.natAbs rest hstop _
            (by rw [signSplit_digit hdig, ← List.cons_append, ← hct])]
          have : appSign false n.natAbs = n := by
            simp only [appSign, reduceIte]
            exact Int.natAbs_of_nonneg (by omega)
          rw [this]
      | .float m e =>
        simp only [printV]
        by_cases hm : m < 0
        · rw [intChars, if_pos hm]
          simp only [List.cons_append, List.append_assoc]
          rw [parseVal.eq_def]
          simp only []
          rw [skipWs_cons_not (by decide)]
          simp only [Char.reduceEq, reduceIte]
          rw [parseNum_float_core true m.natAbs e rest hstop _ (signSplit_neg _)]
          have : appSign true m.natAbs = m := by
            simp only [appSign, reduceIte]
            rw [Int.ofNat_natAbs_of_nonpos (le_of_lt hm)]
            exact neg_neg m
          rw [this]
        · obtain ⟨c, t, hct, hdig⟩ := natDigits_head m.natAbs
          rw [intChars, if_neg hm, hct]
          simp only [List.cons_append, List.append_assoc]
          rw [parseVal.eq_def]
          simp only []
          rw [skipWs_cons_not (digit_not_ws hdig)]
          simp only []
          rw [if_neg (ne_of_digit_vs hdig (show isDigitCh '"' = false from by decide)),
            if_neg (ne_of_digit_vs hdig (show isDigitCh '[' = false from by decide)),
            if_neg (ne_of_digit_vs hdig (show isDigitCh '{' = false from by decide)),
            if_neg (ne_of_digit_vs hdig (show isDigitCh 'n' = false from by decide)),
            if_neg (ne_of_digit_vs hdig (show isDigitCh 't' = false from by decide)),
            if_neg (ne_of_digit_vs hdig (show isDigitCh 'f' = false from by decide))]
          rw [parseNum_float_core false m.natAbs e rest hstop _
            (by rw [signSplit_digit hdig, ← List.cons_append, ← hct])]
          have : appSign false m.natAbs = m := by
            simp only [appSign, reduceIte]
            exact Int.natAbs_of_nonneg (by omega)
          rw [this]
      | .str s =>
        simp only [printV, List.cons_append, List.append_assoc, List.singleton_append,
          List.nil_append]
        rw [parseVal.eq_def]
        simp only []
        rw [skipWs_cons_not (by decide)]
        simp only [Char.reduceEq, reduceIte]
        rw [show escBody s = (s.data.map escapeChar).flatten from rfl,
          parseStrBody_print s.data rest]
      | .arr [] => rfl
      | .arr (x :: xs) =>
        simp only [sizeV] at hsz
        have hx := sizeV_pos x
        have hxs := sizeArr_pos xs
        simp only [printV, List.cons_append, List.append_assoc, List.singleton_append, List.nil_append]
        rw [parseVal.eq_def]
        simp only []
        rw [skipWs_cons_not (by decide)]
        simp only [Char.reduceEq, reduceIte]
        obtain ⟨c, t, hct, hnws, hne1, hne2⟩ := printV_headOk x
        rw [hct, List.cons_append, skipWs_cons_not hnws]
        simp only []
        rw [if_neg hne1, ← List.cons_append, ← hct]
        rw [ihV x (printArrTail xs ++ ']' :: rest) (by omega) (stopCh_arrTail xs rest)]
        simp only []
        rw [ihA xs rest (by omega)]
      | .obj [] => rfl
      | .obj ((k, v) :: kvs) =>
        simp only [sizeV] at hsz
        have hv := sizeV_pos v
        have hkvs := sizeObj_pos kvs
        simp only [printV, List.cons_append, List.append_assoc, List.singleton_append, List.nil_append]
        rw [parseVal.eq_def]
        simp only []
        rw [skipWs_cons_not (by decide)]
        simp only [Char.reduceEq, reduceIte]
        rw [show skipWs ('"' :: (escBody k ++ '"' :: ':' :: ' ' ::
          (printV v ++ (printObjTail kvs ++ '}' :: rest)))) = '"' :: (escBody k ++
          '"' :: ':' :: ' ' :: (printV v ++ (printObjTail kvs ++ '}' :: rest)))
          from skipWs_cons_not (by decide) _]
        simp only [Char.reduceEq, reduceIte]
        rw [ihM k v (printObjTail kvs ++ '}' :: rest) (by omega) (stopCh_objTail kvs rest)]
        simp only []
        rw [ihO kvs rest (by omega)]
    · intro xs rest hsz
      cases xs with
      | nil =>
        simp only [printArrTail, List.nil_append]
        rfl
      | cons x xs =>
        simp only [sizeArr] at hsz
        have hx := sizeV_pos x
        have hxs := sizeArr_pos xs
        simp only [printArrTail, List.cons_append, List.append_assoc]
        rw [parseArrTl.eq_def]
        simp only []
        rw [show skipWs (',' :: ' ' :: (printV x ++ (printArrTail xs ++ ']' :: rest))) =
          ',' :: ' ' :: (printV x ++ (printArrTail xs ++ ']' :: rest))
          from skipWs_cons_not (by decide) _]
        simp only [Char.reduceEq, reduceIte]
        rw [parseVal_cons_ws]
        rw [ihV x (printArrTail xs ++ ']' :: rest) (by omega) (stopCh_arrTail xs rest)]
        simp only []
        rw [ihA xs rest (by omega)]
    · intro kvs rest hsz
      match kvs, hsz with
      | [], _ =>
        simp only [printObjTail, List.nil_append]
        rfl
      | (k, v) :: kvs, hsz =>
        simp only [sizeObj] at hsz
        have hv := sizeV_pos v
        have hkvs := sizeObj_pos kvs
        simp only [printObjTail, List.cons_append, List.append_assoc]
        rw [parseObjTl.eq_def]
        simp only []
        rw [show skipWs (',' :: ' ' :: '"' :: (escBody k ++ '"' :: ':' :: ' ' ::
          (printV v ++ (printObjTail kvs ++ '}' :: rest)))) = ',' :: ' ' :: '"' ::
          (escBody k ++ '"' :: ':' :: ' ' :: (printV v ++ (printObjTail kvs ++ '}' :: rest)))
          from skipWs_cons_not (by decide) _]
        simp only [Char.reduceEq, reduceIte]
        rw [parseMember_cons_ws]
        rw [ihM k v (printObjTail kvs ++ '}' :: rest) (by omega) (stopCh_objTail kvs rest)]
        simp only []
        rw [ihO kvs rest (by omega)]
    · intro k v rest hsz hstop
      rw [parseMember.eq_def]
      simp only []
      rw [show skipWs ('"' :: (escBody k ++ '"' :: ':' :: ' ' :: (printV v ++ rest))) =
        '"' :: (escBody k ++ '"' :: ':' :: ' ' :: (printV v ++ rest))
        from skipWs_cons_not (by decide) _]
      simp only [Char.reduceEq, reduceIte]
      rw [show escBody k = (k.data.map escapeChar).flatten from rfl,
        parseStrBody_print k.data (':' :: ' ' :: (printV v ++ rest))]
      simp only []
      rw [show skipWs (':' :: ' ' :: (printV v ++ rest)) =
        ':' :: ' ' :: (printV v ++ rest) from skipWs_cons_not (by decide) _]
      simp only [Char.reduceEq, reduceIte]
      rw [parseVal_cons_ws]
      rw [ihV v rest (by omega) hstop]

/-- The decoder's `length + 1` fuel always suffices: every unit of parser
fuel corresponds to at least one printed character. -/
theorem size_le_aux (N : Nat) :
    (∀ v, sizeV v ≤ N → sizeV v ≤ (printV v).length + 1) ∧
    (∀ xs, sizeArr xs ≤ N → sizeArr xs ≤ (printArrTail xs).length + 1) ∧
    (∀ kvs, sizeObj kvs ≤ N → sizeObj kvs ≤ (printObjTail kvs).length + 1) := by
  induction N with
  | zero =>
    refine ⟨?_, ?_, ?_⟩
    · intro v hv
      have := sizeV_pos v
      omega
    · intro xs hxs
      have := sizeArr_pos xs
      omega
    · intro kvs hkvs
      have := sizeObj_pos kvs
      omega
  | succ N ih =>
    obtain ⟨ihV, ihA, ihO⟩ := ih
    refine ⟨?_, ?_, ?_⟩
    · intro v hv
      match v with
      | .null => simp only [sizeV]; omega
      | .bool true => simp only [sizeV]; omega
      | .bool false => simp only [sizeV]; omega
      | .int n => simp only [sizeV]; omega
      | .float m e => simp only [sizeV]; omega
      | .str s => simp only [sizeV]; omega
      | .arr [] => simp only [sizeV]; omega
      | .arr (x :: xs) =>
        simp only [sizeV] at hv ⊢
        have hp1 := sizeV_pos x
        have hp2 := sizeArr_pos xs
        have h1 := ihV x (by omega)
        have h2 := ihA xs (by omega)
        simp only [printV, List.length_cons, List.length_append]
        omega
      | .obj [] => simp only [sizeV]; omega
      | .obj ((k, v) :: kvs) =>
        simp only [sizeV] at hv ⊢
        have hp1 := sizeV_pos v
        have hp2 := sizeObj_pos kvs
        have h1 := ihV v (by omega)
        have h2 := ihO kvs (by omega)
        simp only [printV, List.length_cons, List.length_append]
        omega
    · intro xs hxs
      match xs with
      | [] => simp only [sizeArr, printArrTail]; omega
      | x :: xs =>
        simp only [sizeArr] at hxs ⊢
        have hp1 := sizeV_pos x
        have hp2 := sizeArr_pos xs
        have h1 := ihV x (by omega)
        have h2 := ihA xs (by omega)
        simp only [printArrTail, List.length_cons, List.length_append]
        omega
    · intro kvs hkvs
      match kvs with
      | [] => simp only [sizeObj, printObjTail]; omega
      | (k, v) :: kvs =>
        simp only [sizeObj] at hkvs ⊢
        have hp1 := sizeV_pos v
        have hp2 := sizeObj_pos kvs
        have h1 := ihV v (by omega)
        have h2 := ihO kvs (by omega)
        simp only [printObjTail, List.length_cons, List.length_append]
        omega

/-- The codec round trip: decoding an encoded document returns it exactly.
(No well-formedness is needed at this level; `json_encode` prints maps in
stored order, which for canonical documents is the sorted order
`sort_keys=True` produces.) -/
theorem json_decode_encode (v : JVal) : json_decode (json_encode v) = some v := by
  have hsize : sizeV v ≤ (printV v).length + 1 := (size_le_aux (sizeV v)).1 v le_rfl
  have h := (parse_print ((printV v).length + 1)).1 v [] (by omega) trivial
  rw [List.append_nil] at h
  simp only [json_decode, json_encode]
  rw [show ({ data := printV v } : String).length = (printV v).length from rfl, h]
  rfl

/-! ## Table-state lemmas -/

theorem dbLookup_upsert_self (k v : String) (db : Db) :
    dbLookup k (dbUpsert k v db) = some v := by
  induction db with
  | nil => simp [dbUpsert, dbLookup]
  | cons hd tl ih =>
    obtain ⟨k', v'⟩ := hd
    simp only [dbUpsert]
    by_cases h1 : strLt k k' = true
    · rw [if_pos h1]
      simp [dbLookup]
    · rw [if_neg h1]
      by_cases h2 : k' = k
      · rw [if_pos h2]
        simp [dbLookup]
      · rw [if_neg h2]
        simp [dbLookup, h2, ih]

theorem dbLookup_upsert_other (k k2 v : String) (db : Db) (hne : k ≠ k2) :
    dbLookup k2 (dbUpsert k v db) = dbLookup k2 db := by
  induction db with
  | nil => simp [dbUpsert, dbLookup, hne]
  | cons hd tl ih =>
    obtain ⟨k', v'⟩ := hd
    simp only [dbUpsert]
    by_cases h1 : strLt k k' = true
    · rw [if_pos h1]
      simp [dbLookup, hne]
    · rw [if_neg h1]
      by_cases h2 : k' = k
      · rw [if_pos h2]
        subst h2
        simp [dbLookup, hne]
      · rw [if_neg h2]
        simp [dbLookup, ih]

/-- Keys of the rows a `BETWEEN` scan returns: exactly the stored keys
within the (inclusive) bounds. -/
theorem mem_dbBetween_keys (lo hi k : String) (db : Db) :
    k ∈ (dbBetween lo hi db).map Prod.fst ↔
      (k ∈ db.map Prod.fst ∧ strLe lo k = true ∧ strLe k hi = true) := by
  simp only [dbBetween, List.mem_map, List.mem_filter]
  constructor
  · rintro ⟨r, ⟨hmem, hcond⟩, rfl⟩
    rw [Bool.and_eq_true] at hcond
    exact ⟨⟨r, hmem, rfl⟩, hcond⟩
  · rintro ⟨⟨r, hmem, rfl⟩, hlo, hhi⟩
    refine ⟨r, ⟨hmem, ?_⟩, rfl⟩
    rw [Bool.and_eq_true]
    exact ⟨hlo, hhi⟩

/-- Function `decodeRows` keeps the keys (in order) when it succeeds. -/
theorem decodeRows_keys (rows : List (String × String))
    (out : List (String × JVal)) (h : decodeRows rows = .ok out) :
    out.map Prod.fst = rows.map Prod.fst := by
  induction rows generalizing out with
  | nil =>
    simp only [decodeRows] at h
    cases h
    rfl
  | cons r rows ih =>
    obtain ⟨kk, s⟩ := r
    simp only [decodeRows] at h
    cases hd : json_decode s with
    | none =>
      rw [hd] at h
      cases h
    | some v =>
      rw [hd] at h
      cases he : decodeRows rows with
      | error e =>
        rw [he] at h
        cases h
      | ok l =>
        rw [he] at h
        simp only [Except.map] at h
        cases h
        simp [ih l he]

/-- Function `decodeRows` succeeds on rows whose values are encoder output. -/
theorem decodeRows_encoded (rows : List (String × String))
    (h : ∀ r ∈ rows, ∃ v : JVal, r.2 = json_encode v) :
    ∃ out, decodeRows rows = .ok out ∧
      out.map Prod.fst = rows.map Prod.fst := by
  induction rows with
  | nil => exact ⟨[], rfl, rfl⟩
  | cons r rows ih =>
    obtain ⟨kk, s⟩ := r
    obtain ⟨v, hv⟩ := h (kk, s) (by simp)
    obtain ⟨out, hout, hkeys⟩ := ih (fun r hr => h r (by simp [hr]))
    refine ⟨(kk, v) :: out, ?_, by simp [hkeys]⟩
    simp only [decodeRows]
    rw [show s = json_encode v from hv, json_decode_encode v, hout]
    rfl

/-- The `atomic_add` transaction body on a key holding integer text, or
holding nothing: the stored value becomes the old one plus the delta. -/
theorem applyAdd_lookup (k : String) (db : Db) (m δ : Int)
    (h : dbLookup k db = some (intStr m) ∨ (dbLookup k db = none ∧ m = 0)) :
    dbLookup k (applyAdd k δ db) = some (intStr (m + δ)) := by
  rcases h with h | ⟨h, rfl⟩
  · have hb : applyAdd k δ db = dbUpsert k (intStr (sqliteToInt (intStr m) + δ)) db := by
      simp [applyAdd, sqlUpdateAdd, h]
    rw [hb, sqliteToInt_intStr]
    exact dbLookup_upsert_self k _ db
  · have hb : applyAdd k δ db = dbUpsert k (intStr δ) db := by
      simp [applyAdd, sqlUpdateAdd, h]
    rw [hb, show (0 : Int) + δ = δ by ring]
    exact dbLookup_upsert_self k _ db

/-- Function `applyAdd` leaves other keys untouched. -/
theorem applyAdd_lookup_other (k k2 : String) (db : Db) (δ : Int) (hne : k ≠ k2) :
    dbLookup k2 (applyAdd k δ db) = dbLookup k2 db := by
  simp only [applyAdd, sqlUpdateAdd]
  cases h : dbLookup k db with
  | some s =>
    simp only [reduceIte]
    exact dbLookup_upsert_other k k2 _ db hne
  | none =>
    simp only [reduceIte]
    exact dbLookup_upsert_other k k2 _ db hne

/-! ## Invariant of the concurrent `atomic_add` system -/

/-- Sum of the deltas of the threads that have committed. -/
def doneSum {n : Nat} (d : Fin n → Int) (pcs : Fin n → Phase) : Int :=
  (Finset.univ.filter (fun j => pcs j = Phase.done)).sum d

theorem doneSum_of_none_done {n : Nat} (d : Fin n → Int) (pcs : Fin n → Phase)
    (h : ∀ j, pcs j ≠ Phase.done) : doneSum d pcs = 0 := by
  unfold doneSum
  rw [Finset.filter_false_of_mem (fun j _ => h j)]
  exact Finset.sum_empty

theorem doneSum_update_applied {n : Nat} (d : Fin n → Int) (pcs : Fin n → Phase)
    (i : Fin n) (hi : pcs i ≠ Phase.done) :
    doneSum d (Function.update pcs i Phase.applied) = doneSum d pcs := by
  unfold doneSum
  congr 1
  ext j
  by_cases hj : j = i
  · subst hj
    simp [Function.update, hi]
  · simp [Function.update, hj]

theorem doneSum_update_done {n : Nat} (d : Fin n → Int) (pcs : Fin n → Phase)
    (i : Fin n) (hi : pcs i ≠ Phase.done) :
    doneSum d (Function.update pcs i Phase.done) = doneSum d pcs + d i := by
  unfold doneSum
  have hset : Finset.univ.filter (fun j => Function.update pcs i Phase.done j = Phase.done) =
      insert i (Finset.univ.filter (fun j => pcs j = Phase.done)) := by
    ext j
    by_cases hj : j = i
    · subst hj
      simp [Function.update]
    · simp [Function.update, hj]
  rw [hset, Finset.sum_insert (by simp [hi])]
  ring

theorem doneSum_all_done {n : Nat} (d : Fin n → Int) (pcs : Fin n → Phase)
    (h : ∀ j, pcs j = Phase.done) : doneSum d pcs = Finset.univ.sum d := by
  unfold doneSum
  rw [Finset.filter_true_of_mem (fun j _ => h j)]

/-- The inductive invariant: the committed table holds the initial value
plus the deltas of the committed threads (or the key is still absent and
nothing has committed); when a thread holds the lock, its staged state
additionally carries its own delta, and it is the only thread mid-flight. -/
def Inv {n : Nat} (k : String) (d : Fin n → Int) (v0 : Int) (s : AddSys n) : Prop :=
  (dbLookup k s.db = some (intStr (v0 + doneSum d s.pcs)) ∨
    (dbLookup k s.db = none ∧ v0 = 0 ∧ ∀ j, s.pcs j ≠ Phase.done)) ∧
  (match s.txn with
   | Option.none => ∀ j, s.pcs j ≠ Phase.applied
   | some (i, dbt) =>
     s.pcs i = Phase.applied ∧ (∀ j, j ≠ i → s.pcs j ≠ Phase.applied) ∧
       dbLookup k dbt = some (intStr (v0 + doneSum d s.pcs + d i)))

theorem inv_init {n : Nat} (k : String) (d : Fin n → Int) (v0 : Int) (db0 : Db)
    (h0 : dbLookup k db0 = some (intStr v0) ∨ (dbLookup k db0 = none ∧ v0 = 0)) :
    Inv k d v0 (initSys n db0) := by
  constructor
  · rcases h0 with h | ⟨h, hv⟩
    · left
      show dbLookup k db0 = some (intStr (v0 + doneSum d (initSys n db0).pcs))
      have hds : doneSum d (initSys n db0).pcs = 0 :=
        doneSum_of_none_done d _ (fun j => by simp [initSys])
      rw [h, hds, add_zero]
    · right
      exact ⟨h, hv, fun j => by simp [initSys]⟩
  · intro j
    simp [initSys]

theorem inv_step {n : Nat} (k : String) (d : Fin n → Int) (v0 : Int)
    (s s' : AddSys n) (hstep : AddStep n k d s s') (hinv : Inv k d v0 s) :
    Inv k d v0 s' := by
  obtain ⟨hval, htx⟩ := hinv
  cases hstep with
  | start i hidle htxn =>
    rw [htxn] at htx
    have hnotdone : s.pcs i ≠ Phase.done := by
      rw [hidle]
      simp
    have hds : doneSum d (Function.update s.pcs i Phase.applied) = doneSum d s.pcs :=
      doneSum_update_applied d s.pcs i hnotdone
    constructor
    · show dbLookup k s.db = some (intStr (v0 + doneSum d (Function.update s.pcs i Phase.applied))) ∨ _
      rw [hds]
      rcases hval with h | ⟨h, hv, hnd⟩
      · exact Or.inl h
      · refine Or.inr ⟨h, hv, fun j => ?_⟩
        by_cases hj : j = i
        · subst hj
          simp [Function.update]
        · simp only [Function.update, dif_neg hj]
          exact hnd j
    · show (match (some (i, applyAdd k (d i) s.db) :
          Option (Fin n × Db)) with
        | Option.none => ∀ j, Function.update s.pcs i Phase.applied j ≠ Phase.applied
        | some (i', dbt) => _ ∧ _ ∧ _)
      refine ⟨by simp [Function.update], fun j hj => ?_, ?_⟩
      · simp only [Function.update, dif_neg hj]
        exact htx j
      · rw [hds]
        rcases hval with h | ⟨h, hv, hnd⟩
        · exact applyAdd_lookup k s.db _ (d i) (Or.inl h)
        · have hds0 : doneSum d s.pcs = 0 := doneSum_of_none_done d s.pcs hnd
          have := applyAdd_lookup k s.db 0 (d i) (Or.inr ⟨h, rfl⟩)
          rw [hds0, hv]
          simpa using this
  | commit i dbt happ htxn =>
    rw [htxn] at htx
    obtain ⟨hpi, honly, hstage⟩ := htx
    have hnotdone : s.pcs i ≠ Phase.done := by
      rw [happ]
      simp
    have hds : doneSum d (Function.update s.pcs i Phase.done) = doneSum d s.pcs + d i :=
      doneSum_update_done d s.pcs i hnotdone
    constructor
    · left
      show dbLookup k dbt = _
      rw [hds, hstage, ← add_assoc]
    · intro j
      by_cases hj : j = i
      · subst hj
        simp [Function.update]
      · simp only [Function.update, dif_neg hj]
        exact honly j hj

/-- Any state reachable from the initial one satisfies the invariant. -/
theorem inv_reach {n : Nat} (k : String) (d : Fin n → Int) (v0 : Int) (db0 : Db)
    (h0 : dbLookup k db0 = some (intStr v0) ∨ (dbLookup k db0 = none ∧ v0 = 0))
    (s : AddSys n) (hreach : Relation.ReflTransGen (AddStep n k d) (initSys n db0) s) :
    Inv k d v0 s := by
  induction hreach with
  | refl => exact inv_init k d v0 db0 h0
  | tail hsteps hstep ih => exact inv_step k d v0 _ _ hstep ih

/-! ## Operation-level helper lemmas -/

/-- Integer text is exactly the encoding of an integer document. -/
theorem json_decode_intStr (m : Int) : json_decode (intStr m) = some (.int m) := by
  rw [show intStr m = json_encode (.int m) from rfl]
  exact json_decode_encode (.int m)

/-- A successful `atomic_add` on a string key is the transaction body in one
write scope. -/
theorem atomic_add_str (k : String) (d : Int) (db : Db) :
    atomic_add (.str k) d db = ⟨.ok (), applyAdd k d db, [.openWrite]⟩ := rfl

/-- The encoding of a non-numeric document coerces to 0 under SQLite's
text-to-numeric conversion (its text never starts with a sign or digit). -/
theorem sqliteToInt_nonnum (v : JVal)
    (hni : ∀ n : Int, v ≠ .int n) (hnf : ∀ m e : Int, v ≠ .float m e) :
    sqliteToInt (json_encode v) = 0 := by
  have haux : ∀ (c : Char) (t : List Char), isWsChar c = false → c ≠ '-' → c ≠ '+' →
      isDigitCh c = false → sqliteToIntAux (skipWs (c :: t)) = 0 := by
    intro c t hws hm hp hd
    rw [skipWs_cons_not hws]
    simp only [sqliteToIntAux, if_neg hm, if_neg hp]
    simp only [takeDigits, hd]
    rfl
  match v with
  | .null => rfl
  | .bool true => rfl
  | .bool false => rfl
  | .int n => exact absurd rfl (hni n)
  | .float m e => exact absurd rfl (hnf m e)
  | .str s =>
    exact haux '"' _ (by decide) (by decide) (by decide) (by decide)
  | .arr [] => rfl
  | .arr (x :: xs) =>
    exact haux '[' _ (by decide) (by decide) (by decide) (by decide)
  | .obj [] => rfl
  | .obj ((kk, vv) :: kvs) =>
    exact haux '{' _ (by decide) (by decide) (by decide) (by decide)

/-- An absent key means no row carries it. -/
theorem dbLookup_none_iff (k : String) (db : Db) :
    dbLookup k db = none ↔ ∀ r ∈ db, r.1 ≠ k := by
  induction db with
  | nil => simp [dbLookup]
  | cons hd tl ih =>
    obtain ⟨k', v'⟩ := hd
    simp only [dbLookup]
    by_cases h : k' = k
    · simp [h]
    · simp [h, ih]

/-- Deleting an absent key changes nothing. -/
theorem dbDelete_absent (k : String) (db : Db) (h : dbLookup k db = none) :
    dbDelete k db = db := by
  rw [dbLookup_none_iff] at h
  unfold dbDelete
  apply List.filter_eq_self.mpr
  intro r hr
  simp [h r hr]

/-- The key-validation pass of the batch operations succeeds when every key
is a string. -/
theorem checkKeys_ok (recs : List (PyArg × PyObj))
    (h : ∀ r ∈ recs, ∃ s, r.1 = PyArg.str s) : checkKeys recs = .ok () := by
  induction recs with
  | nil => rfl
  | cons r recs ih =>
    obtain ⟨ka, va⟩ := r
    obtain ⟨s, hs⟩ := h (ka, va) (by simp)
    simp only at hs
    subst hs
    simp only [checkKeys, check_key]
    exact ih (fun r hr => h r (by simp [hr]))

/-- Building the record batch raises `TypeError` whenever any value is not
encodable. -/
theorem encodeRecords_err (recs : List (PyArg × PyObj))
    (h : ∃ r ∈ recs, r.2 = PyObj.nonEncodable) :
    encodeRecords recs = .error .typeError := by
  induction recs with
  | nil =>
    obtain ⟨r, hr, _⟩ := h
    cases hr
  | cons r recs ih =>
    obtain ⟨ka, va⟩ := r
    match va with
    | PyObj.nonEncodable => rfl
    | PyObj.json v =>
      obtain ⟨r', hr', hv'⟩ := h
      rcases List.mem_cons.mp hr' with hh | hh
      · subst hh
        cases hv'
      · simp only [encodeRecords, json_encodeAny]
        rw [ih ⟨r', hh, hv'⟩]
        rfl

/-! ## Claim theorems -/

/-- C1: For N concurrent callers each issuing `atomic_add(key, d_i)` against
the same key whose initial value is absent or numeric (0 if absent), every
complete interleaving of the lock-serialized system leaves the stored value
equal to the initial value plus the sum of all deltas: the adds are
linearizable with respect to each other. -/
theorem atomic_add_linearizable {n : Nat} (k : String) (d : Fin n → Int) (v0 : Int)
    (db0 : Db) (hn : 0 < n)
    (h0 : dbLookup k db0 = some (intStr v0) ∨ (dbLookup k db0 = none ∧ v0 = 0))
    (s : AddSys n)
    (hreach : Relation.ReflTransGen (AddStep n k d) (initSys n db0) s)
    (hdone : ∀ i, s.pcs i = Phase.done) :
    dbLookup k s.db = some (intStr (v0 + Finset.univ.sum d)) := by
  obtain ⟨hval, _⟩ := inv_reach k d v0 db0 h0 s hreach
  rcases hval with h | ⟨_, _, hnd⟩
  · rw [h, doneSum_all_done d s.pcs hdone]
  · exact absurd (hdone ⟨0, hn⟩) (hnd ⟨0, hn⟩)

/-- Concrete two-thread schedule for the C1 witness. -/
def cDel : Fin 2 → Int := fun i => (i.val : Int) + 1

/-- Witness states of the concrete schedule (initial). -/
def addW1 : AddSys 2 := initSys 2 []

/-- Thread 0 has run its transaction body and holds the lock. -/
def addW2 : AddSys 2 :=
  ⟨addW1.db, some (0, applyAdd "k" (cDel 0) addW1.db),
    Function.update addW1.pcs 0 Phase.applied⟩

/-- Thread 0 committed. -/
def addW3 : AddSys 2 :=
  ⟨applyAdd "k" (cDel 0) addW1.db, Option.none, Function.update addW2.pcs 0 Phase.done⟩

/-- Thread 1 has run its transaction body and holds the lock. -/
def addW4 : AddSys 2 :=
  ⟨addW3.db, some (1, applyAdd "k" (cDel 1) addW3.db),
    Function.update addW3.pcs 1 Phase.applied⟩

/-- Thread 1 committed: final state. -/
def addW5 : AddSys 2 :=
  ⟨applyAdd "k" (cDel 1) addW3.db, Option.none, Function.update addW4.pcs 1 Phase.done⟩

theorem addStep1 : AddStep 2 "k" cDel addW1 addW2 :=
  AddStep.start addW1 0 (by decide) rfl

theorem addStep2 : AddStep 2 "k" cDel addW2 addW3 :=
  AddStep.commit addW2 0 (applyAdd "k" (cDel 0) addW1.db) (by decide) rfl

theorem addStep3 : AddStep 2 "k" cDel addW3 addW4 :=
  AddStep.start addW3 1 (by decide) rfl

theorem addStep4 : AddStep 2 "k" cDel addW4 addW5 :=
  AddStep.commit addW4 1 (applyAdd "k" (cDel 1) addW3.db) (by decide) rfl

theorem addWReach : Relation.ReflTransGen (AddStep 2 "k" cDel) addW1 addW5 :=
  Relation.ReflTransGen.tail (Relation.ReflTransGen.tail (Relation.ReflTransGen.tail
    (Relation.ReflTransGen.tail Relation.ReflTransGen.refl addStep1) addStep2)
    addStep3) addStep4

/-- C1 witness: a concrete complete two-thread execution from an absent key
with deltas 1 and 2 ends with the key holding 3. -/
theorem atomic_add_linearizable_witness :
    (0 : Nat) < 2 ∧ (∀ i, addW5.pcs i = Phase.done) ∧
      dbLookup "k" addW5.db = some (intStr 3) := by
  refine ⟨by decide, by decide, ?_⟩
  have h := atomic_add_linearizable "k" cDel 0 [] (by decide)
    (Or.inr ⟨rfl, rfl⟩) addW5 addWReach (by decide)
  rw [show (0 : Int) + Finset.univ.sum cDel = 3 by decide] at h
  exact h

/-- C2: `atomic_add(key, delta)` on a valid string key runs one `UPDATE`
(adding the delta to the stored value) and inserts a `(key, delta)` row
exactly when that update affected zero rows, all in one committed write
scope; afterwards `get` returns `old + delta` when the key held an integer
and `delta` when it was absent. -/
theorem atomic_add_update_insert (k : String) (d : Int) (db : Db) :
    ((atomic_add (.str k) d db).res = .ok () ∧
      (atomic_add (.str k) d db).evs = [Ev.openWrite]) ∧
    ((sqlUpdateAdd k d db).2 = 0 ↔ dbLookup k db = none) ∧
    (∀ n : Int, dbLookup k db = some (intStr n) →
      (get (.str k) Option.none ((atomic_add (.str k) d db).db)).res =
        .ok (some (.int (n + d)))) ∧
    (dbLookup k db = none →
      (get (.str k) Option.none ((atomic_add (.str k) d db).db)).res =
        .ok (some (.int d))) := by
  refine ⟨⟨rfl, rfl⟩, ?_, ?_, ?_⟩
  · unfold sqlUpdateAdd
    cases h : dbLookup k db <;> simp
  · intro n hn
    rw [atomic_add_str]
    have h1 : dbLookup k (applyAdd k d db) = some (intStr (n + d)) :=
      applyAdd_lookup k db n d (Or.inl hn)
    simp only [get, check_key, argStr, h1, json_decode_intStr]
  · intro hn
    rw [atomic_add_str]
    have h1 : dbLookup k (applyAdd k d db) = some (intStr (0 + d)) :=
      applyAdd_lookup k db 0 d (Or.inr ⟨hn, rfl⟩)
    rw [zero_add] at h1
    simp only [get, check_key, argStr, h1, json_decode_intStr]

/-- C2 witness: adding 3 to a key holding 5 yields 8. -/
theorem atomic_add_update_insert_witness :
    dbLookup "k" [("k", intStr 5)] = some (intStr 5) ∧
    (get (.str "k") Option.none ((atomic_add (.str "k") 3 [("k", intStr 5)]).db)).res =
      .ok (some (.int 8)) := by
  refine ⟨rfl, ?_⟩
  have h := (atomic_add_update_insert "k" 3 [("k", intStr 5)]).2.2.1 5 rfl
  rw [show (5 : Int) + 3 = 8 by decide] at h
  exact h

/-- C3 counterexample: `atomic_add` on a key holding the non-numeric value
`"abc"` does not fail at all — the engine's coercion silently treats the
stored text as 0 and the call succeeds, leaving `0 + 5 = 5`. -/
theorem atomic_add_nonnumeric_no_error :
    (atomic_add (.str "k") 5 [("k", "\"abc\"")]).res = .ok () ∧
    (get (.str "k") Option.none ((atomic_add (.str "k") 5 [("k", "\"abc\"")]).db)).res =
      .ok (some (.int 5)) :=
  ⟨rfl, rfl⟩

/-- C3 amended: on a key holding any non-numeric document, `atomic_add`
raises nothing; SQLite coerces the stored text to 0 (its numeric-prefix
value) and stores `0 + delta`, so a subsequent `get` returns the delta. -/
theorem atomic_add_nonnumeric_coerces (k : String) (d : Int) (db : Db) (v : JVal)
    (hlook : dbLookup k db = some (json_encode v))
    (hni : ∀ n : Int, v ≠ .int n) (hnf : ∀ m e : Int, v ≠ .float m e) :
    (atomic_add (.str k) d db).res = .ok () ∧
    (get (.str k) Option.none ((atomic_add (.str k) d db).db)).res =
      .ok (some (.int d)) := by
  refine ⟨rfl, ?_⟩
  rw [atomic_add_str]
  have hb : applyAdd k d db =
      dbUpsert k (intStr (sqliteToInt (json_encode v) + d)) db := by
    simp [applyAdd, sqlUpdateAdd, hlook]
  have h0 : dbLookup k (applyAdd k d db) = some (intStr d) := by
    rw [hb, sqliteToInt_nonnum v hni hnf, zero_add]
    exact dbLookup_upsert_self k _ db
  simp only [get, check_key, argStr, h0, json_decode_intStr]

/-- C3 amended witness: adding 7 atop the stored string `"abc"` gives 7. -/
theorem atomic_add_nonnumeric_coerces_witness :
    dbLookup "q" [("q", json_encode (.str "abc"))] = some (json_encode (.str "abc")) ∧
    (get (.str "q") Option.none
      ((atomic_add (.str "q") 7 [("q", json_encode (.str "abc"))]).db)).res =
      .ok (some (.int 7)) := by
  refine ⟨rfl, ?_⟩
  exact (atomic_add_nonnumeric_coerces "q" 7 [("q", json_encode (.str "abc"))]
    (.str "abc") rfl (by intro n h; cases h) (by intro m e h; cases h)).2

/-- C4: `set(key, value)` followed by `get(key)` returns a value
structurally equal to `value`, for every canonical JSON document — the
codec round trip is lossless, keeping the int-versus-float distinction and
non-ASCII text. -/
theorem set_get_roundtrip (k : String) (v : JVal) (db : Db) (hv : jwf v = true) :
    (set (.str k) (.json v) db).res = .ok () ∧
    (get (.str k) Option.none ((set (.str k) (.json v) db).db)).res =
      .ok (some v) := by
  refine ⟨rfl, ?_⟩
  have hdb : (set (.str k) (.json v) db).db = dbUpsert k (json_encode v) db := rfl
  rw [hdb]
  have h1 : dbLookup k (dbUpsert k (json_encode v) db) = some (json_encode v) :=
    dbLookup_upsert_self k _ db
  simp only [get, check_key, argStr, h1, json_decode_encode]

/-- A document exercising every constructor, non-ASCII text, control
characters, a negative int and a non-integer float. -/
def rtVal : JVal :=
  .obj [("a", .int (-12)),
        ("b", .arr [.null, .bool true, .float 15 (-1), .str "héllo\n"]),
        ("c", .str "näïve")]

/-- C4 witness: the round trip at a concrete rich document. -/
theorem set_get_roundtrip_witness :
    jwf rtVal = true ∧
    (get (.str "k") Option.none ((set (.str "k") (.json rtVal) []).db)).res =
      .ok (some rtVal) :=
  ⟨by decide, (set_get_roundtrip "k" rtVal [] (by decide)).2⟩

/-- C5 counterexample: `get_range` performs no key validation — with a
`None` bound it opens the read scope and runs the query (the `NULL` bound
matches nothing), returning an empty result instead of raising a
`KeyError` before I/O. -/
theorem get_range_unvalidated :
    (get_range PyArg.none (.str "z") [("a", "1")]).res = .ok [] ∧
    (get_range PyArg.none (.str "z") [("a", "1")]).evs = [Ev.openRead] :=
  ⟨rfl, rfl⟩

/-- The operation failed with a `KeyError` before touching the engine:
state unchanged, no connection opened. -/
def FailsBeforeEngine {α : Type} (r : OpResult α) (db : Db) : Prop :=
  (∃ m, r.res = .error (.keyError m)) ∧ r.db = db ∧ r.evs = []

/-- C5 amended: every string-key operation except `get_range` and
`get_many` validates the key first and fails with `KeyError` before any
I/O, leaving the store unchanged; `get_range` and `get_many` skip
validation — a `None` key is bound as SQL `NULL` inside an opened read
scope and silently matches nothing. -/
theorem key_validation_amended (key : PyArg)
    (hbad : key = PyArg.none ∨ key = PyArg.nonStr)
    (db : Db) (v : PyObj) (d : Int) (ign : Bool) :
    FailsBeforeEngine (set key v db) db ∧
    FailsBeforeEngine (set_default key v db) db ∧
    FailsBeforeEngine (get key Option.none db) db ∧
    FailsBeforeEngine (get_or_raise key db) db ∧
    FailsBeforeEngine (has_key key db) db ∧
    FailsBeforeEngine (remove key ign db) db ∧
    FailsBeforeEngine (key_range key (.str "") db) db ∧
    FailsBeforeEngine (key_range (.str "") key db) db ∧
    FailsBeforeEngine (dict_range key key db) db ∧
    FailsBeforeEngine (update [(key, v)] db) db ∧
    FailsBeforeEngine (insert_or_ignore [(key, v)] db) db ∧
    FailsBeforeEngine (atomic_add key d db) db ∧
    (get_range key key db).evs = [Ev.openRead] ∧
    (get_many [key] db).evs = [Ev.openRead] ∧
    (key = PyArg.none →
      (get_range key key db).res = .ok [] ∧ (get_many [key] db).res = .ok []) := by
  rcases hbad with h | h <;> subst h <;>
    refine ⟨⟨⟨_, rfl⟩, rfl, rfl⟩, ⟨⟨_, rfl⟩, rfl, rfl⟩, ⟨⟨_, rfl⟩, rfl, rfl⟩,
      ⟨⟨_, rfl⟩, rfl, rfl⟩, ⟨⟨_, rfl⟩, rfl, rfl⟩, ⟨⟨_, rfl⟩, rfl, rfl⟩,
      ⟨⟨_, rfl⟩, rfl, rfl⟩, ⟨⟨_, rfl⟩, rfl, rfl⟩, ⟨⟨_, rfl⟩, rfl, rfl⟩,
      ⟨⟨_, rfl⟩, rfl, rfl⟩, ⟨⟨_, rfl⟩, rfl, rfl⟩, ⟨⟨_, rfl⟩, rfl, rfl⟩,
      rfl, rfl, ?_⟩
  · intro _
    exact ⟨rfl, rfl⟩
  · intro h
    cases h

/-- C5 witness: the amended statement at a concrete null key and store. -/
theorem key_validation_amended_witness :
    (PyArg.none = PyArg.none ∨ PyArg.none = PyArg.nonStr) ∧
    FailsBeforeEngine (set PyArg.none (.json .null) [("a", "1")]) [("a", "1")] := by
  have h := key_validation_amended PyArg.none (Or.inl rfl) [("a", "1")]
    (.json .null) 0 false
  exact ⟨Or.inl rfl, h.1⟩

/-- Transitivity of the byte order (needed for the empty-range case). -/
theorem listLe_trans : ∀ a b c : List Char,
    listLe a b = true → listLe b c = true → listLe a c = true := by
  intro a
  induction a with
  | nil =>
    intro b c _ _
    rfl
  | cons x as ih =>
    intro b c hab hbc
    match b, c with
    | [], _ => simp [listLe] at hab
    | _ :: _, [] => simp [listLe] at hbc
    | y :: bs, z :: cs =>
      simp only [listLe] at hab hbc ⊢
      by_cases hxy : x.toNat < y.toNat
      · by_cases hyz : y.toNat < z.toNat
        · have hxz : x.toNat < z.toNat := by omega
          simp [hxz]
        · by_cases hzy : z.toNat < y.toNat
          · rw [if_neg hyz, if_pos hzy] at hbc
            cases hbc
          · have hxz : x.toNat < z.toNat := by omega
            simp [hxz]
      · by_cases hyx : y.toNat < x.toNat
        · rw [if_neg hxy, if_pos hyx] at hab
          cases hab
        · rw [if_neg hxy, if_neg hyx] at hab
          by_cases hyz : y.toNat < z.toNat
          · have hxz : x.toNat < z.toNat := by omega
            simp [hxz]
          · by_cases hzy : z.toNat < y.toNat
            · rw [if_neg hyz, if_pos hzy] at hbc
              cases hbc
            · rw [if_neg hyz, if_neg hzy] at hbc
              have hxz1 : ¬ x.toNat < z.toNat := by omega
              have hxz2 : ¬ z.toNat < x.toNat := by omega
              rw [if_neg hxz1, if_neg hxz2]
              exact ih bs cs hab hbc

theorem strLe_trans {a b c : String} (h1 : strLe a b = true) (h2 : strLe b c = true) :
    strLe a c = true :=
  listLe_trans a.data b.data c.data h1 h2

/-- An empty range selects nothing. -/
theorem dbBetween_empty (lo hi : String) (db : Db) (h : strLe lo hi = false) :
    dbBetween lo hi db = [] := by
  unfold dbBetween
  apply List.filter_eq_nil_iff.mpr
  intro r hr
  intro hc
  rw [Bool.and_eq_true] at hc
  rw [strLe_trans hc.1 hc.2] at h
  cases h

/-- C6: `key_range(low, high)` and `dict_range(low, high)` return exactly
the stored keys `k` with `low <= k <= high` (both bounds inclusive, key
order), and an empty range — in particular `low > high` — yields an empty
result, not an error. -/
theorem range_bounds (lo hi : String) (db : Db)
    (hdb : ∀ r ∈ db, ∃ v : JVal, r.2 = json_encode v) :
    (∃ l, (key_range (.str lo) (.str hi) db).res = .ok l ∧
      (∀ k, k ∈ l ↔ (k ∈ db.map Prod.fst ∧ strLe lo k = true ∧ strLe k hi = true)) ∧
      (strLe lo hi = false → l = [])) ∧
    (∃ m, (dict_range (.str lo) (.str hi) db).res = .ok m ∧
      (∀ k, k ∈ m.map Prod.fst ↔
        (k ∈ db.map Prod.fst ∧ strLe lo k = true ∧ strLe k hi = true)) ∧
      (strLe lo hi = false → m = [])) := by
  constructor
  · refine ⟨(dbBetween lo hi db).map Prod.fst, rfl,
      fun k => mem_dbBetween_keys lo hi k db, ?_⟩
    intro hlh
    rw [dbBetween_empty lo hi db hlh]
    rfl
  · obtain ⟨out, hout, hkeys⟩ := decodeRows_encoded (dbBetween lo hi db)
      (fun r hr => hdb r (List.mem_of_mem_filter hr))
    refine ⟨out, ?_, ?_, ?_⟩
    · simp only [dict_range, check_key, argStr]
      exact hout
    · intro k
      rw [show out.map Prod.fst = (dbBetween lo hi db).map Prod.fst from hkeys]
      exact mem_dbBetween_keys lo hi k db
    · intro hlh
      rw [dbBetween_empty lo hi db hlh] at hout
      simp only [decodeRows] at hout
      exact (Except.ok.inj hout).symm

/-- C6 witness: concrete bounds over a three-key store, including an
inverted (empty) range. -/
theorem range_bounds_witness :
    (∀ r ∈ ([("a", "1"), ("b", "2"), ("c", "3")] : Db), ∃ v : JVal, r.2 = json_encode v) ∧
    (∃ l, (key_range (.str "a") (.str "b") [("a", "1"), ("b", "2"), ("c", "3")]).res =
      .ok l ∧ ("a" ∈ l ∧ "b" ∈ l ∧ "c" ∉ l)) := by
  have hdb : ∀ r ∈ ([("a", "1"), ("b", "2"), ("c", "3")] : Db),
      ∃ v : JVal, r.2 = json_encode v := by
    intro r hr
    rcases List.mem_cons.mp hr with h | h
    · exact ⟨.int 1, by rw [h]; rfl⟩
    rcases List.mem_cons.mp h with h2 | h2
    · exact ⟨.int 2, by rw [h2]; rfl⟩
    rcases List.mem_cons.mp h2 with h3 | h3
    · exact ⟨.int 3, by rw [h3]; rfl⟩
    · cases h3
  refine ⟨hdb, ?_⟩
  obtain ⟨l, hres, hmem, _⟩ :=
    (range_bounds "a" "b" [("a", "1"), ("b", "2"), ("c", "3")] hdb).1
  refine ⟨l, hres, ?_, ?_, ?_⟩
  · rw [hmem "a"]
    refine ⟨by simp, by decide, by decide⟩
  · rw [hmem "b"]
    refine ⟨by simp, by decide, by decide⟩
  · rw [hmem "c"]
    intro hc
    have := hc.2.2
    rw [show strLe "c" "b" = false from by decide] at this
    cases this

/-- C7: the claim says the racing "table already exists" failure from
`CREATE TABLE` is tolerated; the code catches `sqlite3.ProgrammingError`,
but SQLite raises `sqlite3.OperationalError` for this condition, so the
race propagates the error out of construction.  (The code's own
`pass  # Table already created` comment documents the tolerant intent.) -/
theorem create_table_race_propagates :
    create_table "default" false true =
      .error (.operationalError "table default already exists") ∧
    create_table "default" false false = .ok () ∧
    create_table "default" true true = .ok () :=
  ⟨rfl, rfl, rfl⟩

/-- C8: `remove(key)` deletes the row and succeeds when the key exists;
on an absent key it raises `KeyError(key)` when `ignore_missing_key` is
false, and is a no-op (no error, store unchanged) when it is true. -/
theorem remove_spec (k : String) (db : Db) (ign : Bool) :
    ((dbLookup k db).isSome = true →
      (remove (.str k) ign db).res = .ok () ∧
      (remove (.str k) ign db).db = dbDelete k db) ∧
    (dbLookup k db = none →
      (remove (.str k) false db).res = .error (.keyError k) ∧
      (remove (.str k) false db).db = db) ∧
    (dbLookup k db = none →
      (remove (.str k) true db).res = .ok () ∧
      (remove (.str k) true db).db = db) := by
  refine ⟨?_, ?_, ?_⟩
  · intro h
    constructor
    · show (remove (.str k) ign db).res = .ok ()
      simp only [remove, check_key, argStr, h, reduceIte]
    · show (remove (.str k) ign db).db = dbDelete k db
      simp only [remove, check_key, argStr, h, reduceIte]
  · intro h
    have h2 : (dbLookup k db).isSome = false := by
      rw [h]
      rfl
    constructor
    · show (remove (.str k) false db).res = .error (.keyError k)
      simp only [remove, check_key, argStr, h2, Bool.false_eq_true, reduceIte]
      rfl
    · show (remove (.str k) false db).db = db
      simp only [remove, check_key, argStr, h2, Bool.false_eq_true, reduceIte]
      exact dbDelete_absent k db h
  · intro h
    have h2 : (dbLookup k db).isSome = false := by
      rw [h]
      rfl
    constructor
    · show (remove (.str k) true db).res = .ok ()
      simp only [remove, check_key, argStr, h2, Bool.false_eq_true, reduceIte]
      rfl
    · show (remove (.str k) true db).db = db
      simp only [remove, check_key, argStr, h2, Bool.false_eq_true, reduceIte]
      exact dbDelete_absent k db h

/-- C8 witness: a present key is removed; an absent key raises without the
flag and is silent with it. -/
theorem remove_spec_witness :
    ((dbLookup "k" [("k", "1")]).isSome = true ∧
      (remove (.str "k") false [("k", "1")]).res = .ok ()) ∧
    (dbLookup "q" ([] : Db) = none ∧
      (remove (.str "q") false []).res = .error (.keyError "q") ∧
      (remove (.str "q") true []).res = .ok ()) := by
  refine ⟨⟨rfl, ((remove_spec "k" [("k", "1")] false).1 rfl).1⟩,
    rfl, ((remove_spec "q" [] false).2.1 rfl).1,
    ((remove_spec "q" [] true).2.2 rfl).1⟩

/-- C9 counterexample: with exactly one entry the textual representation is
the compact single-line rendering, not the indented dump the claim
asserts for every non-empty store. -/
theorem repr_single_compact :
    (reprStore [("0", "\"1\"")]).res = .ok "\x7b\"0\": \"1\"\x7d" ∧
    (reprStore [("0", "\"1\"")]).res ≠
      .ok (pyDumps (some 4) (.obj [("0", .str "1")])) := by
  refine ⟨rfl, ?_⟩
  intro h
  rw [show (reprStore [("0", "\"1\"")]).res = .ok "\x7b\"0\": \"1\"\x7d" from rfl] at h
  exact absurd (Except.ok.inj h) (by decide)

/-- C9 amended: the representation is deterministic — `\x7b\x7d` when the
store is empty, the compact one-line dump for exactly one entry, and the
4-space-indented dump for two or more entries, with keys in sorted order
throughout. -/
theorem repr_spec (db : Db) (out : List (String × JVal))
    (hdec : decodeRows db = .ok out) :
    (db = [] → (reprStore db).res = .ok "\x7b\x7d") ∧
    (out.length = 1 → (reprStore db).res = .ok (pyDumps Option.none (.obj out))) ∧
    (2 ≤ out.length → (reprStore db).res = .ok (pyDumps (some 4) (.obj out))) ∧
    (DbWf db → List.Chain' (fun a b => strLt a b = true) (out.map Prod.fst)) := by
  have hrepr : (reprStore db).res =
      .ok (pyDumps (if 2 ≤ out.length then some 4 else Option.none) (.obj out)) := by
    simp only [reprStore, hdec]
  refine ⟨?_, ?_, ?_, ?_⟩
  · intro h
    subst h
    simp only [decodeRows] at hdec
    have hout : out = [] := (Except.ok.inj hdec).symm
    subst hout
    rw [hrepr]
    rfl
  · intro h
    rw [hrepr, if_neg (by omega)]
  · intro h
    rw [hrepr, if_pos h]
  · intro hwf
    rw [decodeRows_keys db out hdec, List.chain'_map]
    exact hwf

/-- C9 witness: a two-entry store renders as the indented dump. -/
theorem repr_spec_witness :
    decodeRows [("0", "\"1\""), ("1", "2")] =
      .ok [("0", JVal.str "1"), ("1", JVal.int 2)] ∧
    (reprStore [("0", "\"1\""), ("1", "2")]).res =
      .ok (pyDumps (some 4) (.obj [("0", JVal.str "1"), ("1", JVal.int 2)])) :=
  ⟨rfl, (repr_spec [("0", "\"1\""), ("1", "2")]
    [("0", JVal.str "1"), ("1", JVal.int 2)] rfl).2.2.1 (by decide)⟩

/-- C10: a non-encodable value makes `set`/`set_default` raise `TypeError`
with no connection event and no state change, and makes a batch
(`update`, `insert_or_ignore`) raise during record construction — before
the write scope opens — so no row of the batch is written. -/
theorem encode_failure_before_io (k : String) (db : Db)
    (recs : List (PyArg × PyObj))
    (hkeys : ∀ r ∈ recs, ∃ s, r.1 = PyArg.str s)
    (hbad : ∃ r ∈ recs, r.2 = PyObj.nonEncodable) :
    ((set (.str k) PyObj.nonEncodable db).res = .error .typeError ∧
      (set (.str k) PyObj.nonEncodable db).db = db ∧
      (set (.str k) PyObj.nonEncodable db).evs = []) ∧
    ((set_default (.str k) PyObj.nonEncodable db).res = .error .typeError ∧
      (set_default (.str k) PyObj.nonEncodable db).db = db ∧
      (set_default (.str k) PyObj.nonEncodable db).evs = []) ∧
    ((update recs db).res = .error .typeError ∧ (update recs db).db = db ∧
      (update recs db).evs = []) ∧
    ((insert_or_ignore recs db).res = .error .typeError ∧
      (insert_or_ignore recs db).db = db ∧
      (insert_or_ignore recs db).evs = []) := by
  have hck := checkKeys_ok recs hkeys
  have henc := encodeRecords_err recs hbad
  refine ⟨⟨rfl, rfl, rfl⟩, ⟨rfl, rfl, rfl⟩, ⟨?_, ?_, ?_⟩, ⟨?_, ?_, ?_⟩⟩ <;>
    simp only [update, insert_or_ignore, hck, henc]

/-- The batch used by the C10 witness: one good row, one bad row. -/
def recsW : List (PyArg × PyObj) :=
  [(.str "a", .json .null), (.str "b", PyObj.nonEncodable)]

/-- C10 witness: a concrete mixed batch leaves the store untouched. -/
theorem encode_failure_before_io_witness :
    (∀ r ∈ recsW, ∃ s, r.1 = PyArg.str s) ∧
    (∃ r ∈ recsW, r.2 = PyObj.nonEncodable) ∧
    (update recsW [("z", "0")]).res = .error .typeError ∧
    (update recsW [("z", "0")]).db = [("z", "0")] := by
  have hkeys : ∀ r ∈ recsW, ∃ s, r.1 = PyArg.str s := by
    intro r hr
    rcases List.mem_cons.mp hr with h | h
    · exact ⟨"a", by rw [h]⟩
    rcases List.mem_cons.mp h with h2 | h2
    · exact ⟨"b", by rw [h2]⟩
    · cases h2
  have hbad : ∃ r ∈ recsW, r.2 = PyObj.nonEncodable :=
    ⟨(.str "b", PyObj.nonEncodable), by simp [recsW], rfl⟩
  have h := encode_failure_before_io "x" [("z", "0")] recsW hkeys hbad
  exact ⟨hkeys, hbad, h.2.2.1.1, h.2.2.1.2.1⟩

end KVS
